import Mathlib

/-!
Verification of the ImCrawler image crawler (`download_images.py`) against its
natural-language specification.  The Python source is shallowly embedded:
pure helpers become Lean functions, the shared mutable session state
(`downloaded_urls`, `hash_set`, `index_counter`, `visited`, the files of the
output directory and the metadata csv file) becomes an explicit state record,
and the recursive `parse_and_download` becomes a depth-indexed recursive
function.  External collaborators (the HTTP transport, HTML extraction,
`urljoin`, the PIL decode pipeline and sha256) are fields of a `World`
record, so every theorem holds for every instantiation of those fields.
The embedding covers runs during which the shutdown flag does not change
(for an uninterrupted run it is `false` throughout).
-/

namespace ImCrawler

/-! ### ASCII models of the Python string operations -/

/-- Model of Python `str.lower` (ASCII, as used on URLs and extensions). -/
def lowerStr (s : String) : String := ⟨s.data.map Char.toLower⟩

/-- Model of Python `str.endswith`. -/
def strEndsWith (s suffixStr : String) : Bool := suffixStr.data.isSuffixOf s.data

/-- Model of Python `s.split(":")[0]`: the text before the first colon. -/
def beforeColon (s : String) : String := ⟨s.data.takeWhile (fun c => c != ':')⟩

/-- Fuel-indexed core of Python `str.replace(pat, "")`: removes every
non-overlapping occurrence of `pat`, scanning left to right.  Each step
consumes at least one character, so fuel `s.length` is always enough. -/
def removeAllAux (pat : List Char) : Nat → List Char → List Char
  | 0, s => s
  | _ + 1, [] => []
  | fuel + 1, c :: rest =>
    if pat ≠ [] ∧ pat.isPrefixOf (c :: rest) then
      removeAllAux pat fuel (List.drop pat.length (c :: rest))
    else
      c :: removeAllAux pat fuel rest

/-- Model of Python `s.replace(pat, "")`. -/
def removeAll (pat s : String) : String :=
  ⟨removeAllAux pat.data s.data.length s.data⟩

/-- Characters that terminate the authority component of a URL. -/
def isNetlocEnd (c : Char) : Bool := c == '/' || c == '?' || c == '#'

/-- The text after the first occurrence of `pat`, or `none`. -/
def afterSub (pat : List Char) : List Char → Option (List Char)
  | [] => none
  | c :: rest =>
    if pat.isPrefixOf (c :: rest) then some (List.drop pat.length (c :: rest))
    else afterSub pat rest

/-- Model of `urllib.parse.urlparse(url).netloc` for the URL shapes the
crawler handles: the authority is the text between the first `://` and the
next `/`, `?` or `#`; a URL without `://` has no authority. -/
def netlocOf (url : String) : String :=
  match afterSub ("://").data url.data with
  | none => ""
  | some r => ⟨r.takeWhile (fun c => !isNetlocEnd c)⟩

/-- Model of `urllib.parse.urlparse(url).path`: what follows the authority,
up to the query or fragment. -/
def pathOf (url : String) : String :=
  match afterSub ("://").data url.data with
  | none => ⟨url.data.takeWhile (fun c => !(c == '?' || c == '#'))⟩
  | some r =>
    ⟨(r.dropWhile (fun c => !isNetlocEnd c)).takeWhile
      (fun c => !(c == '?' || c == '#'))⟩

/-- Embedding of `get_domain_name` (download_images.py, lines 27-30): the
lowercased authority, the port (text from the first colon on) dropped,
every occurrence of the substring `www.` removed by `str.replace`, with the
fallback `images` supplied by `or` when the result is empty. -/
def get_domain_name (url : String) : String :=
  if removeAll "www." (beforeColon (lowerStr (netlocOf url))) = "" then "images"
  else removeAll "www." (beforeColon (lowerStr (netlocOf url)))

/-- Model of `os.path.splitext(p)[1]`: the extension of the final path
component, beginning at its last dot; empty when that component has no dot
or only leading dots before it. -/
def extOf (p : String) : String :=
  let base := (p.data.reverse.takeWhile (fun c => c != '/')).reverse
  let revTail := base.reverse.takeWhile (fun c => c != '.')
  match base.reverse.dropWhile (fun c => c != '.') with
  | [] => ""
  | _ :: preRev =>
    if preRev.any (fun c => c != '.') then ⟨'.' :: revTail.reverse⟩ else ""

/-- The ASCII digit character of `n` (for `n < 10`). -/
def digitCh (n : Nat) : Char := Char.ofNat (48 + n)

/-- Fuel-indexed decimal expansion, most significant digit first. -/
def natDigitsAux : Nat → Nat → List Char → List Char
  | 0, _, acc => acc
  | fuel + 1, n, acc =>
    if n < 10 then digitCh n :: acc
    else natDigitsAux fuel (n / 10) (digitCh (n % 10) :: acc)

/-- Decimal digits of `n`, most significant first. -/
def natDigits (n : Nat) : List Char := natDigitsAux (n + 1) n []

/-- Numeric value of a decimal digit string (proof-side inverse). -/
def digitsVal (cs : List Char) : Nat :=
  cs.foldl (fun a c => 10 * a + (c.toNat - 48)) 0

/-- Model of the Python format field `{:06d}` of line 114: the decimal
representation of `n`, left-padded with zeros to width 6. -/
def pad6 (n : Nat) : String :=
  ⟨List.replicate (6 - (natDigits n).length) '0' ++ natDigits n⟩

/-- The output filename built at line 114 for index `idx` and extension
`ext`. -/
def mkFname (idx : Nat) (ext : String) : String := "img_" ++ pad6 idx ++ ext

/-! ### The crawler embedding -/

/-- Raw bytes of an HTTP body or a file. -/
abbrev Bytes := List Nat

/-- The result of fetching and HTML-parsing one page: the `src` attributes of
its `img` tags and the `href` attributes of its anchor tags, in document
order. -/
structure Page where
  imgSrcs : List String
  links : List String
deriving DecidableEq

/-- External collaborators, fixed for one run: page transport plus HTML
extraction (`pages`; `none` means the fetch or parse raises), image transport
(`images`; `none` means the fetch raises), `urllib.parse.urljoin`, the PIL
pipeline `open / convert RGB / resize 64x64 / tobytes` (`decodeRGB64`;
`none` means PIL raises) and `hashlib.sha256(..).hexdigest()`.
`shutdownFlag` is the process-wide flag, constant during the runs covered by
this embedding. -/
structure World where
  pages : String → Option Page
  images : String → Option Bytes
  urljoin : String → String → String
  decodeRGB64 : Bytes → Option Bytes
  sha256hex : Bytes → String
  shutdownFlag : Bool

/-- The shared mutable session state: the lock-guarded url and hash sets and
the index counter, the shared `visited` set, the files written into the
output directory (newest write first, so `List.lookup` sees the latest
content), and the network request log split by request kind. -/
structure CrawlState where
  downloadedUrls : List String
  hashSet : List String
  nextIndex : Nat
  files : List (String × Bytes)
  visited : List String
  pageLog : List String
  imgLog : List String
deriving DecidableEq

/-- Embedding of `hash_image_bytes` (lines 45-53): sha256 of the decoded,
RGB-converted, 64x64-resized pixel buffer; `none` when PIL raises. -/
def hash_image_bytes (w : World) (imgBytes : Bytes) : Option String :=
  (w.decodeRGB64 imgBytes).map w.sha256hex

/-- Embedding of `download_image` (lines 56-74).  The crawler always passes a
hash set, so the `hash_set is not None` tests are true; `throttle`, `timeout`
and `auth` only shape the request and are dropped.  Returns `true` on a kept
download, `false` on a transport failure or a content-hash duplicate; only a
kept download writes a file. -/
def download_image (w : World) (url savePath : String) (s : CrawlState) :
    Bool × CrawlState :=
  let s0 := { s with imgLog := s.imgLog ++ [url] }
  match w.images url with
  | none => (false, s0)
  | some imgBytes =>
    match hash_image_bytes w imgBytes with
    | some imgHash =>
      if imgHash ∈ s0.hashSet then (false, s0)
      else (true, { s0 with hashSet := s0.hashSet ++ [imgHash],
                            files := (savePath, imgBytes) :: s0.files })
    | none => (true, { s0 with files := (savePath, imgBytes) :: s0.files })

/-- The lock-guarded admission section of the per-image loop (lines
108-112): membership test on `downloaded_urls`, insert, and
`next(index_counter)`, in one critical section. -/
def admitURL (s : CrawlState) (imgUrl : String) : Option Nat × CrawlState :=
  if imgUrl ∈ s.downloadedUrls then (none, s)
  else (some s.nextIndex,
        { s with downloadedUrls := imgUrl :: s.downloadedUrls,
                 nextIndex := s.nextIndex + 1 })

/-- The extension filter of lines 96-99: the raw `src` attribute string,
lowercased, must end with one of the allowed extensions, which are used
verbatim. -/
def keepSrc (allowedExts : List String) (src : String) : Bool :=
  allowedExts.any (fun ext => strEndsWith (lowerStr src) ext)

/-- One metadata triple collected by a crawl task:
`(filename, image_url, page_url)` (line 117). -/
abbrev MetaTriple := String × String × String

/-- The per-image loop of `parse_and_download` (lines 104-122): admission,
filename allocation, download, and the `downloaded` and `failed` counters.
Returns `(metadata, downloaded, failed, state)`. -/
def goImgs (w : World) (outputDir pageUrl : String) :
    List String → CrawlState → List MetaTriple × Nat × Nat × CrawlState
  | [], s => ([], 0, 0, s)
  | src :: rest, s =>
    if w.shutdownFlag then ([], 0, 0, s)
    else
      let imgUrl := w.urljoin pageUrl src
      match admitURL s imgUrl with
      | (none, s1) => goImgs w outputDir pageUrl rest s1
      | (some idx, s1) =>
        let ext0 := extOf (pathOf imgUrl)
        let ext := if ext0 = "" then ".jpg" else ext0
        let fname := mkFname idx ext
        let savePath := outputDir ++ "/" ++ fname
        let (ok, s2) := download_image w imgUrl savePath s1
        let (md, dcount, fcount, s3) := goImgs w outputDir pageUrl rest s2
        if ok then ((fname, imgUrl, pageUrl) :: md, dcount + 1, fcount, s3)
        else (md, dcount, fcount + 1, s3)

/-- The per-link loop of lines 124-136: resolve each `href`, keep it when its
authority equals the current page's, and recurse through `recur` (the crawl
at depth one less), accumulating all four counters. -/
def goLinks (w : World) (pageUrl : String)
    (recur : String → CrawlState → List MetaTriple × Nat × Nat × Nat × CrawlState) :
    List String → CrawlState → List MetaTriple × Nat × Nat × Nat × CrawlState
  | [], s => ([], 0, 0, 0, s)
  | link :: rest, s =>
    let nextUrl := w.urljoin pageUrl link
    if netlocOf nextUrl = netlocOf pageUrl then
      let (m, f, d, fa, s1) := recur nextUrl s
      let (m2, f2, d2, fa2, s2) := goLinks w pageUrl recur rest s1
      (m ++ m2, f + f2, d + d2, fa + fa2, s2)
    else goLinks w pageUrl recur rest s

/-- The body of `parse_and_download` up to the recursive-crawl section: the
guard of line 86 (without its depth disjunct, handled by the caller), the
visited insert, the page fetch with its exception handler (a fetch or parse
exception counts one failure and nothing else happens), the extension filter,
the `found` counter and the per-image loop.  `Sum.inl` is an early return,
`Sum.inr` carries the page on to the link loop. -/
def visitPage (w : World) (outputDir : String) (allowedExts : List String)
    (url : String) (s : CrawlState) :
    (List MetaTriple × Nat × Nat × Nat × CrawlState) ⊕
      (Page × List MetaTriple × Nat × Nat × Nat × CrawlState) :=
  if url ∈ s.visited ∨ w.shutdownFlag then Sum.inl ([], 0, 0, 0, s)
  else
    let s1 := { s with visited := url :: s.visited, pageLog := s.pageLog ++ [url] }
    match w.pages url with
    | none => Sum.inl ([], 0, 0, 1, s1)
    | some pg =>
      let srcs := pg.imgSrcs.filter (keepSrc allowedExts)
      let found := srcs.length
      let (md, dcount, fcount, s2) := goImgs w outputDir url srcs s1
      Sum.inr (pg, md, found, dcount, fcount, s2)

/-- The crawl at a nonnegative depth: `core w out exts n url s` is
`parse_and_download` at `depth = n`.  The depth-positive case runs the link
loop with the crawl at the predecessor depth, matching `depth - 1` at
line 131. -/
def core (w : World) (outputDir : String) (allowedExts : List String) :
    Nat → String → CrawlState → List MetaTriple × Nat × Nat × Nat × CrawlState
  | 0, url, s =>
    match visitPage w outputDir allowedExts url s with
    | Sum.inl r => r
    | Sum.inr (_pg, md, found, dcount, fcount, s2) => (md, found, dcount, fcount, s2)
  | n + 1, url, s =>
    match visitPage w outputDir allowedExts url s with
    | Sum.inl r => r
    | Sum.inr (pg, md, found, dcount, fcount, s2) =>
      let (m2, f2, d2, fa2, s3) :=
        goLinks w url (core w outputDir allowedExts n) pg.links s2
      (md ++ m2, found + f2, dcount + d2, fcount + fa2, s3)

/-- Embedding of `parse_and_download` (lines 77-140): a negative depth takes
the early return of line 86; otherwise the crawl runs with the depth as a
natural number (recursive calls use `depth - 1` only under `depth > 0`, so
the Int subtraction agrees with the Nat predecessor).  Returns
`(metadata, found, downloaded, failed, state)`. -/
def parse_and_download (w : World) (outputDir : String)
    (allowedExts : List String) (depth : Int) (url : String) (s : CrawlState) :
    List MetaTriple × Nat × Nat × Nat × CrawlState :=
  if depth < 0 then ([], 0, 0, 0, s)
  else core w outputDir allowedExts depth.toNat url s

/-! ### The metadata store and the main loop -/

/-- A metadata csv file: `none` when the file does not exist, otherwise its
rows, each a list of cells.  The first row of a file written by this program
is the header. -/
abbrev MetaFile := Option (List (List String))

/-- The csv header of line 165. -/
def metaHeader : List String := ["filename", "image_url", "page_url", "img_hash"]

/-- Cell access of `csv.DictReader`: the value of column `name` in `row`,
matched by position against the header row. -/
def colValue (hdr row : List String) (name : String) : Option String :=
  ((hdr.zip row).find? (fun p => p.1 == name)).map (fun p => p.2)

/-- Embedding of `load_existing_metadata` (lines 143-150): the `image_url`
column of every record of an existing file. -/
def load_existing_metadata (file : MetaFile) : List String :=
  match file with
  | none => []
  | some [] => []
  | some (hdr :: rows) => rows.filterMap (fun row => colValue hdr row "image_url")

/-- The resume hash loading of `main` (lines 245-250), the same read as
`load_existing_hashes`: the `img_hash` column of every record. -/
def loadHashes (file : MetaFile) : List String :=
  match file with
  | none => []
  | some [] => []
  | some (hdr :: rows) => rows.filterMap (fun row => colValue hdr row "img_hash")

/-- Embedding of `append_metadata` (lines 164-172): create the file with the
fixed header when it does not exist, then append the batch; an existing file
is only appended to. -/
def append_metadata (file : MetaFile) (rows : List (List String)) : MetaFile :=
  match file with
  | none => some (metaHeader :: rows)
  | some prior => some (prior ++ rows)

/-- The hash cell of `main` (lines 284-291): the image file is re-read from
disk and re-hashed; an unreadable path raises and the handler yields the
empty string; an undecodable payload makes `hash_image_bytes` return `None`,
which `csv.writer` serialises as an empty cell. -/
def hashCell (w : World) (files : List (String × Bytes)) (path : String) : String :=
  match files.lookup path with
  | none => ""
  | some imgBytes =>
    match hash_image_bytes w imgBytes with
    | none => ""
    | some h => h

/-- One four-column record row assembled by `main` (line 291) from a task
metadata triple. -/
def metaRow (w : World) (outputDir : String) (files : List (String × Bytes))
    (t : MetaTriple) : List String :=
  [t.1, t.2.1, t.2.2, hashCell w files (outputDir ++ "/" ++ t.1)]

/-- The running totals and persistent outputs of one crawl session. -/
structure RunAcc where
  file : MetaFile
  sitesVisited : Nat
  found : Nat
  downloaded : Nat
  failed : Nat
  state : CrawlState
deriving DecidableEq

/-- One iteration of the result loop of `main` (lines 279-297): run one crawl
task, assemble its rows with the recomputed hashes, append them to the
metadata file, and accumulate the totals. -/
def processSeed (w : World) (outputDir : String) (allowedExts : List String)
    (depth : Int) (acc : RunAcc) (url : String) : RunAcc :=
  let (md, found, dcount, fcount, s1) :=
    parse_and_download w outputDir allowedExts depth url acc.state
  let rows := md.map (metaRow w outputDir s1.files)
  { file := append_metadata acc.file rows
    sitesVisited := acc.sitesVisited + 1
    found := acc.found + found
    downloaded := acc.downloaded + dcount
    failed := acc.failed + fcount
    state := s1 }

/-- One crawl session of `main` (lines 236-297): rebuild the gate state from
the metadata file, then run one crawl task per seed and append each task's
records on completion.  The tasks are serialised in submission order: every
gate interaction in the source happens under the single lock, and this is
the schedule in which each task runs to completion before the next starts.
`files0` is the content the output directory already holds. -/
def runCrawler (w : World) (outputDir : String) (allowedExts : List String)
    (depth : Int) (seeds : List String) (file0 : MetaFile)
    (files0 : List (String × Bytes)) : RunAcc :=
  let s0 : CrawlState :=
    { downloadedUrls := load_existing_metadata file0
      hashSet := loadHashes file0
      nextIndex := 0
      files := files0
      visited := []
      pageLog := []
      imgLog := [] }
  seeds.foldl (processSeed w outputDir allowedExts depth)
    { file := file0, sitesVisited := 0, found := 0, downloaded := 0,
      failed := 0, state := s0 }

/-! ### Auxiliary definitions used by the claim statements -/

/-- Whether `pat` occurs as a contiguous sublist of `s` (Python `pat in s`). -/
def hasSub (pat : List Char) : List Char → Bool
  | [] => pat.isPrefixOf []
  | c :: rest => pat.isPrefixOf (c :: rest) || hasSub pat rest

/-- The directory-name derivation as claim C8 words it: lowercase the host
and strip a leading `www.` and only that leading occurrence.  Spec-side
definition, written for comparison with `get_domain_name`. -/
def claimDomainName (url : String) : String :=
  if ("www.").data.isPrefixOf (beforeColon (lowerStr (netlocOf url))).data then
    ⟨(beforeColon (lowerStr (netlocOf url))).data.drop 4⟩
  else beforeColon (lowerStr (netlocOf url))

/-- The image-reference filter as claim C7 words it: the path of the image
URL must end, case-insensitively, with one of the allowed extensions.
Spec-side definition, written for comparison with `keepSrc`. -/
def claimKeep (allowedExts : List String) (imgUrl : String) : Bool :=
  allowedExts.any (fun ext => strEndsWith (lowerStr (pathOf imgUrl)) (lowerStr ext))

/-- A serialised trace of admissions through the gate: the indices allocated
to a sequence of admission requests, in order, together with the final
state. -/
def admitAll : CrawlState → List String → List Nat × CrawlState
  | s, [] => ([], s)
  | s, u :: us =>
    match admitURL s u with
    | (none, s1) => admitAll s1 us
    | (some i, s1) =>
      let (is, s2) := admitAll s1 us
      (i :: is, s2)

/-- The visited-set and page-log discipline of one crawl segment under the
serialised schedule: `visited` grows exactly by the pages newly appended to
`pageLog`, each of which was unvisited when the segment started, and no page
is logged twice within the segment. -/
def CrawlVisit (s s1 : CrawlState) : Prop :=
  (∀ x ∈ s.visited, x ∈ s1.visited) ∧
  ∃ newPages : List String,
    s1.pageLog = s.pageLog ++ newPages ∧
    newPages.Nodup ∧
    (∀ p ∈ newPages, p ∉ s.visited) ∧
    (∀ x, x ∈ s1.visited ↔ x ∈ s.visited ∨ x ∈ newPages)

/-- Same-origin link reachability in `k` hops: each hop goes from a fetched
page to the `urljoin` of one of its hyperlinks whose authority (the `netloc`
compared at line 128) equals the current page's. -/
def reachN (w : World) : Nat → String → String → Prop
  | 0, a, b => b = a
  | k + 1, a, b =>
    ∃ z pg href, reachN w k a z ∧ w.pages z = some pg ∧ href ∈ pg.links ∧
      b = w.urljoin z href ∧ netlocOf b = netlocOf z

/-- Whether a character is an ASCII decimal digit (used to separate the
index field of a filename from its extension). -/
def isDig (c : Char) : Prop := 48 ≤ c.toNat ∧ c.toNat ≤ 57

/-- The file-system discipline of a run started on an empty output
directory: every file name is `outputDir/img_NNNNNN.ext` for an index below
the session counter and a dot-led extension. -/
def FilesInv (outputDir : String) (s : CrawlState) : Prop :=
  ∀ pr ∈ s.files, ∃ i ext, i < s.nextIndex ∧ (∃ cs, String.data ext = '.' :: cs) ∧
    pr.1 = outputDir ++ "/" ++ mkFname i ext

/-- A well-formed persisted record row: four cells, whose hash cell is the
content hash of the bytes the image transport serves for its source URL
(whenever those bytes decode). -/
def RowFact (w : World) (row : List String) : Prop :=
  ∃ fname u purl cell, row = [fname, u, purl, cell] ∧
    ∀ bs h, w.images u = some bs → hash_image_bytes w bs = some h → cell = h

/-- A metadata file as produced by a run from scratch: absent, or the fixed
header followed by well-formed record rows. -/
def FileOK (w : World) (file : MetaFile) : Prop :=
  file = none ∨
    ∃ rows, file = some (metaHeader :: rows) ∧ ∀ row ∈ rows, RowFact w row

/-- The structural shape of a metadata file created by this program: absent,
or the fixed header followed by data rows. -/
def ShapeOK (file : MetaFile) : Prop :=
  file = none ∨ ∃ rs, file = some (metaHeader :: rs)

/-- Store coherence: the hash column already covers every source URL of the
store — re-fetching a recorded URL yields bytes whose content hash is among
the loaded hashes. -/
def StoreCoherent (w : World) (L H : List String) : Prop :=
  ∀ u ∈ L, ∀ bs h, w.images u = some bs → hash_image_bytes w bs = some h → h ∈ H

/-- The simulation relation between a first-run state and the corresponding
resumed-run state: identical traversal state, source URLs shifted by the
loaded set `L`, the resumed hash set equal to the loaded hashes `H`, and the
first run's hashes all recorded. -/
def SimInv (L H : List String) (s1 s2 : CrawlState) : Prop :=
  s2.visited = s1.visited ∧
  (∀ x, x ∈ s2.downloadedUrls ↔ x ∈ s1.downloadedUrls ∨ x ∈ L) ∧
  (∀ x, x ∈ s2.hashSet ↔ x ∈ H) ∧
  (∀ h ∈ s1.hashSet, h ∈ H)

/-- The state of a fresh session with no prior metadata and an empty output
directory. -/
def emptyState : CrawlState :=
  { downloadedUrls := [], hashSet := [], nextIndex := 0, files := [],
    visited := [], pageLog := [], imgLog := [] }

/-- The gate state rebuilt at session start (lines 243-250): the seen-source
set and the hash set come from the metadata store, the traversal state and
logs start fresh, and the output directory already holds `files0`. -/
def initState (file0 : MetaFile) (files0 : List (String × Bytes)) : CrawlState :=
  { downloadedUrls := load_existing_metadata file0
    hashSet := loadHashes file0
    nextIndex := 0
    files := files0
    visited := []
    pageLog := []
    imgLog := [] }

/-- The session accumulator a run starts from: the existing metadata file and
the rebuilt gate state, with all totals at zero. -/
def initAcc (file0 : MetaFile) (files0 : List (String × Bytes)) : RunAcc :=
  { file := file0, sitesVisited := 0, found := 0, downloaded := 0,
    failed := 0, state := initState file0 files0 }

/-- The resume discipline for one already-recorded source URL `u`: `u` is in
the session's seen-source set and no image request for `u` has been issued
during the session (`imgLog` records every invocation of the transport). -/
def Gated (u : String) (s : CrawlState) : Prop :=
  u ∈ s.downloadedUrls ∧ u ∉ s.imgLog

/-! ### A thread-interleaving model of the visited check

Lines 86-88 run `if url in visited ...: return` and `visited.add(url)` as two
separate actions with no lock held (unlike the `downloaded_urls` section,
which is under `with lock`).  The model below gives each crawl task arriving
at one page URL its two actions — the membership check, then the insert
followed by the page fetch — as separate atomic steps, and lets a scheduler
interleave the steps of different tasks. -/

/-- One crawl task about to process one page URL.  `pc = 0`: before the
check of line 86; `pc = 1`: check passed, about to insert and fetch;
`pc = 2`: done. -/
structure VisitTask where
  url : String
  pc : Nat
deriving DecidableEq

/-- The shared `visited` set, the task pool, and the log of page fetches. -/
structure VisitedModel where
  visited : List String
  tasks : List VisitTask
  fetchLog : List String
deriving DecidableEq

/-- Run one atomic step of task `i`: at `pc = 0` the unguarded membership
check (line 86); at `pc = 1` the insert (line 88) and the page fetch
(line 90). -/
def visitStep (m : VisitedModel) (i : Nat) : VisitedModel :=
  match m.tasks.get? i with
  | none => m
  | some t =>
    if t.pc = 0 then
      if t.url ∈ m.visited then
        { m with tasks := m.tasks.set i { t with pc := 2 } }
      else
        { m with tasks := m.tasks.set i { t with pc := 1 } }
    else if t.pc = 1 then
      { m with visited := t.url :: m.visited,
               fetchLog := m.fetchLog ++ [t.url],
               tasks := m.tasks.set i { t with pc := 2 } }
    else m

/-- Run a schedule: a list of task indices, each taking one atomic step. -/
def runSched : VisitedModel → List Nat → VisitedModel
  | m, [] => m
  | m, i :: rest => runSched (visitStep m i) rest

/-- Two concurrent tasks recursing toward the same page URL, both still
before the visited check. -/
def twoTaskModel : VisitedModel :=
  { visited := [], tasks := [⟨"http://h/p", 0⟩, ⟨"http://h/p", 0⟩], fetchLog := [] }

/-! ### Concrete worlds used by counterexamples and witnesses -/

/-- A world with one page holding two image URLs whose distinct payloads
decode to the same pixel buffer, so the second download is a content-hash
duplicate. -/
def dupWorld : World :=
  { pages := fun u =>
      if u = "http://h/p" then some ⟨["http://h/a.jpg", "http://h/b.jpg"], []⟩
      else none
    images := fun u =>
      if u = "http://h/a.jpg" then some [1]
      else if u = "http://h/b.jpg" then some [2] else none
    urljoin := fun _ src => src
    decodeRGB64 := fun _ => some [0]
    sha256hex := fun _ => "deadbeef"
    shutdownFlag := false }

/-- The session state of `dupWorld` just after its first image was admitted
and kept: the second image's download starts here. -/
def dupWorldStateAfterFirst : CrawlState :=
  { downloadedUrls := ["http://h/a.jpg"], hashSet := ["deadbeef"], nextIndex := 1,
    files := [("out/img_000000.jpg", [1])], visited := ["http://h/p"],
    pageLog := ["http://h/p"], imgLog := ["http://h/a.jpg"] }

/-- A world exercising the extension filter: one src that ends in `.jpg`
only because of its query string, and one whose path ends in `.jpg` but
whose raw string does not. -/
def filterWorld : World :=
  { pages := fun u =>
      if u = "http://h/p" then
        some ⟨["http://h/a.php?x=.jpg", "http://h/b.jpg?v=1"], []⟩
      else none
    images := fun _ => none
    urljoin := fun _ src => src
    decodeRGB64 := fun _ => none
    sha256hex := fun _ => ""
    shutdownFlag := false }

/-- A world with an image payload PIL cannot decode. -/
def rawWorld : World :=
  { pages := fun u =>
      if u = "http://h/p" then some ⟨["http://h/a.jpg"], []⟩ else none
    images := fun u => if u = "http://h/a.jpg" then some [9, 9] else none
    urljoin := fun _ src => src
    decodeRGB64 := fun _ => none
    sha256hex := fun _ => ""
    shutdownFlag := false }

/-- A two-level site: the seed links to a same-origin child page carrying
one image, and to a foreign page. -/
def linkWorld : World :=
  { pages := fun u =>
      if u = "http://h/p" then some ⟨[], ["/c", "http://other/x"]⟩
      else if u = "http://h/c" then some ⟨["http://h/i.png"], []⟩
      else none
    images := fun u => if u = "http://h/i.png" then some [5] else none
    urljoin := fun base ref =>
      if ref = "/c" then
        if base = "http://h/p" then "http://h/c" else base ++ ref
      else ref
    decodeRGB64 := fun b => some b
    sha256hex := fun _ => "cafe"
    shutdownFlag := false }

/-! ## Theorems

General lemmas first, then one theorem per claim (with its witness or
counterexample where required). -/

/-! ### String lemmas -/

theorem isPrefixOf_append_self (l t : List Char) : l.isPrefixOf (l ++ t) = true := by
  simp [ List.isPrefixOf_iff_prefix]

theorem removeAllAux_no_occurrence (pat : List Char) :
    ∀ (fuel : Nat) (s : List Char), hasSub pat s = false →
      removeAllAux pat fuel s = s := by
  intro fuel
  induction fuel with
  | zero => intro s _; rfl
  | succ n ih =>
    intro s hs
    cases s with
    | nil => rfl
    | cons c rest =>
      simp only [hasSub, Bool.or_eq_false_iff] at hs
      simp [removeAllAux, hs.1, ih rest hs.2]

theorem removeAllAux_leading (pat t : List Char) (fuel : Nat) (hne : pat ≠ []) :
    removeAllAux pat (fuel + 1) (pat ++ t) = removeAllAux pat fuel t := by
  cases pat with
  | nil => exact absurd rfl hne
  | cons p ps =>
    have hpre : (p :: ps).isPrefixOf (p :: (ps ++ t)) = true := by
      simp [ List.isPrefixOf_iff_prefix]
    simp [List.cons_append, removeAllAux, hpre, List.drop_left]

theorem removeAll_no_occurrence (pat s : String)
    (hocc : hasSub pat.data s.data = false) : removeAll pat s = s :=
  congrArg String.mk (removeAllAux_no_occurrence pat.data s.data.length s.data hocc)

theorem removeAll_leading_only (pat t : String) (hne : pat.data ≠ [])
    (hocc : hasSub pat.data t.data = false) :
    removeAll pat ⟨pat.data ++ t.data⟩ = t := by
  show (⟨removeAllAux pat.data (pat.data ++ t.data).length (pat.data ++ t.data)⟩ :
    String) = t
  have hp : 1 ≤ pat.data.length := by
    cases hp : pat.data with
    | nil => exact absurd hp hne
    | cons c cs => simp
  have hlen : (pat.data ++ t.data).length =
      (pat.data.length - 1 + t.data.length) + 1 := by
    rw [List.length_append]; omega
  rw [hlen, removeAllAux_leading pat.data t.data _ hne,
    removeAllAux_no_occurrence pat.data _ t.data hocc]

/-! ### Metadata store lemmas -/

theorem foldl_append_metadata (batches : List (List (List String))) :
    ∀ f : List (List String),
      List.foldl append_metadata (some f) batches = some (f ++ batches.flatten) := by
  induction batches with
  | nil => intro f; simp [append_metadata]
  | cons b bs ih =>
    intro f
    simp only [List.foldl_cons, append_metadata, ih (f ++ b),
      List.flatten_cons, List.append_assoc]

/-! ### Claim C6 (corrected): metadata file layout -/

/-- Claim C6, counterexample to the claim as stated: the header row written
on first creation is `filename, image_url, page_url, img_hash`; the fourth
column is not named `content_hash`. -/
theorem C6_counterexample :
    append_metadata none [] =
      some [["filename", "image_url", "page_url", "img_hash"]] ∧
    metaHeader ≠ ["filename", "image_url", "page_url", "content_hash"] :=
  ⟨rfl, by decide⟩

/-- Claim C6 (amended): the persisted metadata file is an append-only
tabular record whose columns are `filename, image_url, page_url, img_hash`
(the last carrying the content hash); the header row is written exactly once
per output directory, on first creation, and every subsequent append only
adds the batch rows after the existing content, never rewriting prior
records. -/
theorem C6_amended :
    (∀ (prior rows : List (List String)),
      append_metadata (some prior) rows = some (prior ++ rows)) ∧
    (∀ (b : List (List String)) (bs : List (List (List String))),
      List.foldl append_metadata none (b :: bs) =
        some (metaHeader :: (b :: bs).flatten)) := by
  refine ⟨fun _ _ => rfl, fun b bs => ?_⟩
  simp only [List.foldl_cons, append_metadata, foldl_append_metadata,
    List.flatten_cons, List.cons_append]

/-! ### Claim C8 (corrected): default output directory name -/

/-- Claim C8, counterexample to the claim as stated: `str.replace` removes
every occurrence of `www.`, not only a leading prefix, so a host with an
interior `www.` yields a different directory name than the claimed
derivation. -/
theorem C8_counterexample :
    get_domain_name "http://sub.www.example.com/x" = "sub.example.com" ∧
    claimDomainName "http://sub.www.example.com/x" = "sub.www.example.com" ∧
    ("sub.example.com" : String) ≠ "sub.www.example.com" :=
  ⟨by decide, by decide, by decide⟩

/-- Claim C8 (amended): the directory name lowercases the host (port
removed) and removes every occurrence of the substring `www.`, with fallback
`images` when the result is empty; when `www.` occurs at most once and only
as a leading prefix this coincides with stripping the leading prefix. -/
theorem C8_amended (url : String)
    (hocc : hasSub ("www.").data ((claimDomainName url).data) = false) :
    get_domain_name url =
      (if claimDomainName url = "" then "images" else claimDomainName url) := by
  cases hpre : ("www.").data.isPrefixOf (beforeColon (lowerStr (netlocOf url))).data with
  | true =>
    obtain ⟨t, ht⟩ : ∃ t, ("www.").data ++ t = (beforeColon (lowerStr (netlocOf url))).data :=
      ( List.isPrefixOf_iff_prefix.mp hpre)
    have hclaim : claimDomainName url = ⟨t⟩ := by
      unfold claimDomainName
      rw [hpre]
      show (⟨(beforeColon (lowerStr (netlocOf url))).data.drop 4⟩ : String) = ⟨t⟩
      rw [← ht]
      rfl
    have hhost : beforeColon (lowerStr (netlocOf url)) = ⟨("www.").data ++ t⟩ :=
      congrArg String.mk ht.symm
    have hoccT : hasSub ("www.").data t = false := by rw [hclaim] at hocc; exact hocc
    unfold get_domain_name
    rw [hhost, hclaim]
    rw [removeAll_leading_only "www." ⟨t⟩ (by decide) hoccT]
  | false =>
    have hclaim : claimDomainName url = beforeColon (lowerStr (netlocOf url)) := by
      unfold claimDomainName
      rw [hpre]
      simp
    rw [hclaim] at hocc
    unfold get_domain_name
    rw [removeAll_no_occurrence _ _ hocc, hclaim]

/-- Claim C8 witness: a host whose only `www.` is the leading one. -/
theorem C8_amended_witness :
    hasSub ("www.").data ((claimDomainName "http://www.Example.com/a").data) = false ∧
    get_domain_name "http://www.Example.com/a" =
      (if claimDomainName "http://www.Example.com/a" = "" then "images"
       else claimDomainName "http://www.Example.com/a") :=
  ⟨by decide, C8_amended "http://www.Example.com/a" (by decide)⟩

/-! ### Claim C9 (confirmed): undecodable payloads -/

/-- Claim C9: a downloaded payload PIL cannot decode makes
`hash_image_bytes` return `None`; the worker then skips the content-hash
duplicate check (the hash set is left untouched and plays no role), writes
the undecodable bytes to the destination file, and reports success. -/
theorem C9_theorem (w : World) (url savePath : String) (s : CrawlState)
    (imgBytes : Bytes) (hfetch : w.images url = some imgBytes)
    (hdec : w.decodeRGB64 imgBytes = none) :
    hash_image_bytes w imgBytes = none ∧
    download_image w url savePath s =
      (true, { s with imgLog := s.imgLog ++ [url],
                      files := (savePath, imgBytes) :: s.files }) := by
  have h1 : hash_image_bytes w imgBytes = none := by
    simp [hash_image_bytes, hdec]
  exact ⟨h1, by simp [download_image, hfetch, h1]⟩

/-- Claim C9 witness: a concrete undecodable payload. -/
theorem C9_witness :
    rawWorld.images "http://h/a.jpg" = some [9, 9] ∧
    rawWorld.decodeRGB64 [9, 9] = none ∧
    (hash_image_bytes rawWorld [9, 9] = none ∧
     download_image rawWorld "http://h/a.jpg" "out/img_000000.jpg" emptyState =
       (true, { emptyState with
                  imgLog := ["http://h/a.jpg"]
                  files := [("out/img_000000.jpg", [9, 9])] })) := by
  refine ⟨rfl, rfl, ?_⟩
  have h := C9_theorem rawWorld "http://h/a.jpg" "out/img_000000.jpg" emptyState
    [9, 9] rfl rfl
  simpa [emptyState] using h

/-! ### Claim C10 (confirmed): hash recomputation at append time -/

/-- Claim C10: the hash column of each appended record is recomputed by
re-reading the named file from the output directory as it stands when the
crawl task completes (not by reusing any download-time hash); a failed
re-read or a failed decode still yields a full record, with an empty string
in the hash column. -/
theorem C10_theorem (w : World) (outputDir : String)
    (files : List (String × Bytes)) (t : MetaTriple) :
    (files.lookup (outputDir ++ "/" ++ t.1) = none →
      metaRow w outputDir files t = [t.1, t.2.1, t.2.2, ""]) ∧
    (∀ imgBytes, files.lookup (outputDir ++ "/" ++ t.1) = some imgBytes →
      w.decodeRGB64 imgBytes = none →
      metaRow w outputDir files t = [t.1, t.2.1, t.2.2, ""]) ∧
    (∀ imgBytes pix, files.lookup (outputDir ++ "/" ++ t.1) = some imgBytes →
      w.decodeRGB64 imgBytes = some pix →
      metaRow w outputDir files t = [t.1, t.2.1, t.2.2, w.sha256hex pix]) ∧
    (∀ (allowedExts : List String) (depth : Int) (acc : RunAcc) (url : String),
      (processSeed w outputDir allowedExts depth acc url).file =
        append_metadata acc.file
          ((parse_and_download w outputDir allowedExts depth url acc.state).1.map
            (metaRow w outputDir
              (parse_and_download w outputDir allowedExts depth url
                acc.state).2.2.2.2.files))) := by
  refine ⟨?_, ?_, ?_, ?_⟩
  · intro hnone; simp [metaRow, hashCell, hnone]
  · intro imgBytes hsome hdec
    simp [metaRow, hashCell, hsome, hash_image_bytes, hdec]
  · intro imgBytes pix hsome hdec
    simp [metaRow, hashCell, hsome, hash_image_bytes, hdec]
  · intro allowedExts depth acc url; rfl

/-- Claim C10 witness: a record whose written bytes cannot be decoded is
still appended, with an empty hash cell. -/
theorem C10_witness :
    ([("out/img_000000.jpg", [9, 9])] : List (String × Bytes)).lookup
      ("out" ++ "/" ++ "img_000000.jpg") = some [9, 9] ∧
    rawWorld.decodeRGB64 [9, 9] = none ∧
    metaRow rawWorld "out" [("out/img_000000.jpg", [9, 9])]
      ("img_000000.jpg", "http://h/a.jpg", "http://h/p") =
      ["img_000000.jpg", "http://h/a.jpg", "http://h/p", ""] :=
  ⟨by decide, rfl,
    (C10_theorem rawWorld "out" [("out/img_000000.jpg", [9, 9])]
      ("img_000000.jpg", "http://h/a.jpg", "http://h/p")).2.1
      [9, 9] (by decide) rfl⟩

/-! ### Claim C1 (corrected): content-hash duplicates and the counters -/

/-- Claim C1, counterexample to the claim as stated: in `dupWorld` the
second image is a content-hash duplicate of the first; its bytes are
discarded (no file on disk), but the per-task counters returned by the crawl
count it in `failed` — there is no duplicate counter, so it is counted as a
failure, contradicting the claim. -/
theorem C1_counterexample :
    (runCrawler dupWorld "out" [".jpg"] 0 ["http://h/p"] none []).found = 2 ∧
    (runCrawler dupWorld "out" [".jpg"] 0 ["http://h/p"] none []).downloaded = 1 ∧
    (runCrawler dupWorld "out" [".jpg"] 0 ["http://h/p"] none []).failed = 1 ∧
    (runCrawler dupWorld "out" [".jpg"] 0 ["http://h/p"] none
      []).state.files.lookup "out/img_000001.jpg" = none :=
  ⟨by decide, by decide, by decide, by decide⟩

/-- Claim C1 (amended): when the downloaded image's content hash is already
in the seen-content-hash set, the just-fetched bytes are discarded without a
file being written and without the hash set or file system changing, and the
per-task counters count the download as a failure (the counters have no
duplicate category), not as a success. -/
theorem C1_amended (w : World) (outputDir pageUrl src : String)
    (rest : List String) (s : CrawlState) (imgBytes : Bytes) (h : String)
    (hsd : w.shutdownFlag = false)
    (hnew : w.urljoin pageUrl src ∉ s.downloadedUrls)
    (hfetch : w.images (w.urljoin pageUrl src) = some imgBytes)
    (hhash : hash_image_bytes w imgBytes = some h)
    (hdup : h ∈ s.hashSet) :
    goImgs w outputDir pageUrl (src :: rest) s =
      (fun r => (r.1, r.2.1, r.2.2.1 + 1, r.2.2.2))
        (goImgs w outputDir pageUrl rest
          { s with
              downloadedUrls := w.urljoin pageUrl src :: s.downloadedUrls
              nextIndex := s.nextIndex + 1
              imgLog := s.imgLog ++ [w.urljoin pageUrl src] }) := by
  simp [goImgs, hsd, admitURL, hnew, download_image, hfetch, hhash, hdup]

/-- Claim C1 witness: the duplicate download of `dupWorld`, taken at the
state just after its first image was kept. -/
theorem C1_amended_witness :
    dupWorld.shutdownFlag = false ∧
    ("http://h/b.jpg" : String) ∉
      (dupWorldStateAfterFirst).downloadedUrls ∧
    dupWorld.images "http://h/b.jpg" = some [2] ∧
    hash_image_bytes dupWorld [2] = some "deadbeef" ∧
    ("deadbeef" : String) ∈ (dupWorldStateAfterFirst).hashSet ∧
    goImgs dupWorld "out" "http://h/p" ["http://h/b.jpg"]
        dupWorldStateAfterFirst =
      ([], 0, 1,
        { dupWorldStateAfterFirst with
            downloadedUrls := "http://h/b.jpg" ::
              dupWorldStateAfterFirst.downloadedUrls,
            nextIndex := 2,
            imgLog := dupWorldStateAfterFirst.imgLog ++ ["http://h/b.jpg"] }) := by
  refine ⟨rfl, by decide, rfl, rfl, by decide, ?_⟩
  have h := C1_amended dupWorld "out" "http://h/p" "http://h/b.jpg" []
    dupWorldStateAfterFirst [2] "deadbeef" rfl (by decide) rfl rfl (by decide)
  simpa [goImgs, dupWorldStateAfterFirst] using h

theorem admitAll_chain (us : List String) : ∀ s : CrawlState,
    (admitAll s us).1.Nodup ∧
    (∀ i ∈ (admitAll s us).1,
      s.nextIndex ≤ i ∧ i < (admitAll s us).2.nextIndex) ∧
    s.nextIndex ≤ (admitAll s us).2.nextIndex := by
  induction us with
  | nil => intro s; simp [admitAll]
  | cons u us ih =>
    intro s
    by_cases hmem : u ∈ s.downloadedUrls
    · simpa [admitAll, admitURL, hmem] using ih s
    · have hrec := ih
        { s with
            downloadedUrls := u :: s.downloadedUrls
            nextIndex := s.nextIndex + 1 }
      simp only [admitAll, admitURL, hmem, if_neg, not_false_iff, if_false]
      refine ⟨List.nodup_cons.mpr ⟨fun hmem2 => ?_, hrec.1⟩, ?_, ?_⟩
      · have h2 : s.nextIndex + 1 ≤ s.nextIndex := (hrec.2.1 _ hmem2).1
        omega
      · intro i hi
        rcases List.mem_cons.mp hi with hi | hi
        · subst hi
          have h3 : s.nextIndex + 1 ≤ _ := hrec.2.2
          exact ⟨le_refl _, by omega⟩
        · have h4 : s.nextIndex + 1 ≤ i := (hrec.2.1 _ hi).1
          exact ⟨by omega, (hrec.2.1 _ hi).2⟩
      · have h5 : s.nextIndex + 1 ≤ _ := hrec.2.2
        omega

/-! ### Claim C2 (confirmed): the admission gate -/

/-- Claim C2: admission is one critical section that either returns
duplicate (no index allocated, state unchanged, hence no download attempted
— the loop moves on) or inserts the URL and allocates the next index; over
any serialised trace of admissions the allocated indices are pairwise
distinct, and every allocated index is at least the starting counter value,
so indices consumed by downloads that later fail are never reused. -/
theorem C2_theorem (s : CrawlState) (imgUrl : String) (us : List String) :
    (imgUrl ∈ s.downloadedUrls → admitURL s imgUrl = (none, s)) ∧
    (imgUrl ∉ s.downloadedUrls →
      admitURL s imgUrl = (some s.nextIndex,
        { s with downloadedUrls := imgUrl :: s.downloadedUrls,
                 nextIndex := s.nextIndex + 1 })) ∧
    (admitAll s us).1.Nodup ∧
    (∀ i ∈ (admitAll s us).1, s.nextIndex ≤ i) := by
  refine ⟨fun hmem => by simp [ admitURL, hmem], fun hmem => by simp [ admitURL, hmem],
    (admitAll_chain us s).1, fun i hi => ((admitAll_chain us s).2.1 i hi).1⟩

/-- Claim C2 witness: a trace in which the same URL is requested twice and a
fresh URL once. -/
theorem C2_witness :
    ("u1" : String) ∉ emptyState.downloadedUrls ∧
    admitURL emptyState "u1" =
      (some 0, { emptyState with downloadedUrls := ["u1"], nextIndex := 1 }) ∧
    (admitAll emptyState ["u1", "u2", "u1"]).1 = [0, 1] ∧
    (admitAll emptyState ["u1", "u2", "u1"]).1.Nodup := by
  refine ⟨by decide, ?_, by decide,
    (C2_theorem emptyState "u1" ["u1", "u2", "u1"]).2.2.1⟩
  have h := (C2_theorem emptyState "u1" ["u1", "u2", "u1"]).2.1 (by decide)
  simpa [emptyState] using h

/-! ### Claim C7 (corrected): the extension filter -/

/-- Claim C7, counterexample to the claim as stated: the code tests the raw
`src` string, not the URL path.  A src whose query string ends in `.jpg` is
kept (and is the only reference downloaded), while a src whose path ends in
`.jpg` but whose query does not is filtered out — the opposite of the
claimed path-suffix test on both counts. -/
theorem C7_counterexample :
    keepSrc [".jpg"] "http://h/a.php?x=.jpg" = true ∧
    claimKeep [".jpg"] "http://h/a.php?x=.jpg" = false ∧
    keepSrc [".jpg"] "http://h/b.jpg?v=1" = false ∧
    claimKeep [".jpg"] "http://h/b.jpg?v=1" = true ∧
    (runCrawler filterWorld "out" [".jpg"] 0 ["http://h/p"] none []).found = 1 ∧
    (runCrawler filterWorld "out" [".jpg"] 0 ["http://h/p"] none
      []).state.imgLog = ["http://h/a.php?x=.jpg"] :=
  ⟨by decide, by decide, by decide, by decide, by decide, by decide⟩

/-- Claim C7 (amended): an extracted image reference is kept if and only if
the raw `src` attribute string, lowercased, ends with one of the configured
allowed extensions used verbatim (not the URL path, and the extensions are
not lowercased); the per-image loop runs on exactly the kept references. -/
theorem C7_amended (w : World) (outputDir : String) (allowedExts : List String)
    (url : String) (s : CrawlState) (pg : Page)
    (hfresh : url ∉ s.visited) (hsd : w.shutdownFlag = false)
    (hpg : w.pages url = some pg) :
    visitPage w outputDir allowedExts url s =
      (fun r => Sum.inr (pg, r.1, (pg.imgSrcs.filter (keepSrc allowedExts)).length,
          r.2.1, r.2.2.1, r.2.2.2))
        (goImgs w outputDir url (pg.imgSrcs.filter (keepSrc allowedExts))
          { s with
              visited := url :: s.visited
              pageLog := s.pageLog ++ [url] }) ∧
    (∀ src, keepSrc allowedExts src = true ↔
      ∃ ext ∈ allowedExts, ∃ t : List Char, (lowerStr src).data = t ++ ext.data) := by
  constructor
  · simp [visitPage, hfresh, hsd, hpg]
  · intro src
    simp only [keepSrc, strEndsWith, List.any_eq_true, List.isSuffixOf_iff_suffix]
    refine exists_congr fun ext => and_congr_right fun _ => ?_
    exact ⟨fun ⟨t, ht⟩ => ⟨t, ht.symm⟩, fun ⟨t, ht⟩ => ⟨t, ht.symm⟩⟩

/-- Claim C7 witness: the filter of `filterWorld`, on its only page. -/
theorem C7_amended_witness :
    ("http://h/p" : String) ∉ emptyState.visited ∧
    filterWorld.pages "http://h/p" =
      some ⟨["http://h/a.php?x=.jpg", "http://h/b.jpg?v=1"], []⟩ ∧
    (⟨["http://h/a.php?x=.jpg", "http://h/b.jpg?v=1"], []⟩ : Page).imgSrcs.filter
      (keepSrc [".jpg"]) = ["http://h/a.php?x=.jpg"] ∧
    (keepSrc [".jpg"] "http://h/a.php?x=.jpg" = true ↔
      ∃ ext ∈ [".jpg"], ∃ t : List Char,
        (lowerStr "http://h/a.php?x=.jpg").data = t ++ ext.data) :=
  ⟨by decide, rfl, by decide,
    (C7_amended filterWorld "out" [".jpg"] "http://h/p" emptyState
      ⟨["http://h/a.php?x=.jpg", "http://h/b.jpg?v=1"], []⟩
      (by decide) rfl rfl).2 "http://h/a.php?x=.jpg"⟩

/-! ### Crawl traversal lemmas -/

theorem crawlVisit_refl (s : CrawlState) : CrawlVisit s s :=
  ⟨fun _ h => h, [], by simp, List.nodup_nil, by simp, by simp⟩

theorem crawlVisit_of_eq {s s1 : CrawlState} (hv : s1.visited = s.visited)
    (hp : s1.pageLog = s.pageLog) : CrawlVisit s s1 :=
  ⟨fun x hx => hv ▸ hx, [], by simp [hp], List.nodup_nil, by simp,
    fun x => by simp [hv]⟩

theorem crawlVisit_trans {s s1 s2 : CrawlState} (h1 : CrawlVisit s s1)
    (h2 : CrawlVisit s1 s2) : CrawlVisit s s2 := by
  obtain ⟨m1, np1, hp1, nd1, hf1, hv1⟩ := h1
  obtain ⟨m2, np2, hp2, nd2, hf2, hv2⟩ := h2
  refine ⟨fun x hx => m2 x (m1 x hx), np1 ++ np2, ?_, ?_, ?_, ?_⟩
  · rw [hp2, hp1, List.append_assoc]
  · refine List.Nodup.append nd1 nd2 ?_
    intro a ha1 ha2
    exact hf2 a ha2 ((hv1 a).mpr (Or.inr ha1))
  · intro p hp
    rcases List.mem_append.mp hp with hp | hp
    · exact hf1 p hp
    · exact fun hx => hf2 p hp (m1 p hx)
  · intro x
    rw [hv2, hv1, List.mem_append, or_assoc]

theorem download_image_state (w : World) (url savePath : String) (s : CrawlState) :
    ((download_image w url savePath s).2.downloadedUrls = s.downloadedUrls ∧
     (download_image w url savePath s).2.nextIndex = s.nextIndex ∧
     (download_image w url savePath s).2.visited = s.visited ∧
     (download_image w url savePath s).2.pageLog = s.pageLog ∧
     (download_image w url savePath s).2.imgLog = s.imgLog ++ [url]) ∧
    (∀ h ∈ s.hashSet, h ∈ (download_image w url savePath s).2.hashSet) ∧
    (∃ nf, (download_image w url savePath s).2.files = nf ++ s.files) := by
  unfold download_image
  cases himg : w.images url with
  | none => simp
  | some bs =>
    cases hh : hash_image_bytes w bs with
    | some h0 =>
      by_cases hmem : h0 ∈ s.hashSet
      · simp [hh, hmem]
      · refine ⟨by simp [hh, hmem], fun h hh2 => by simp [hh, hmem, hh2], ?_⟩
        exact ⟨[(savePath, bs)], by simp [hh, hmem]⟩
    | none =>
      exact ⟨by simp [hh], fun h hh2 => by simp [hh, hh2],
        ⟨[(savePath, bs)], by simp [hh]⟩⟩

theorem goImgs_state (w : World) (outputDir pageUrl : String) :
    ∀ (srcs : List String) (s : CrawlState),
      ((goImgs w outputDir pageUrl srcs s).2.2.2.visited = s.visited ∧
       (goImgs w outputDir pageUrl srcs s).2.2.2.pageLog = s.pageLog) ∧
      (∀ x ∈ s.downloadedUrls,
        x ∈ (goImgs w outputDir pageUrl srcs s).2.2.2.downloadedUrls) ∧
      s.nextIndex ≤ (goImgs w outputDir pageUrl srcs s).2.2.2.nextIndex ∧
      (∀ h ∈ s.hashSet, h ∈ (goImgs w outputDir pageUrl srcs s).2.2.2.hashSet) ∧
      (∃ nf, (goImgs w outputDir pageUrl srcs s).2.2.2.files = nf ++ s.files) := by
  intro srcs
  induction srcs with
  | nil =>
    intro s
    exact ⟨⟨rfl, rfl⟩, fun x hx => hx, le_refl _, fun h hh => hh, ⟨[], by simp [goImgs]⟩⟩
  | cons src rest ih =>
    intro s
    by_cases hsd : w.shutdownFlag = true
    · refine ⟨⟨?_, ?_⟩, ?_, ?_, ?_, ⟨[], ?_⟩⟩ <;> simp [goImgs, hsd]
    · by_cases hmem : w.urljoin pageUrl src ∈ s.downloadedUrls
      · simpa [goImgs, hsd, admitURL, hmem] using ih s
      · have hd := download_image_state w (w.urljoin pageUrl src)
          (outputDir ++ "/" ++ mkFname s.nextIndex
            (if extOf (pathOf (w.urljoin pageUrl src)) = "" then ".jpg"
             else extOf (pathOf (w.urljoin pageUrl src))))
          { s with
              downloadedUrls := w.urljoin pageUrl src :: s.downloadedUrls
              nextIndex := s.nextIndex + 1 }
        rcases hdl : download_image w (w.urljoin pageUrl src)
          (outputDir ++ "/" ++ mkFname s.nextIndex
            (if extOf (pathOf (w.urljoin pageUrl src)) = "" then ".jpg"
             else extOf (pathOf (w.urljoin pageUrl src))))
          { s with
              downloadedUrls := w.urljoin pageUrl src :: s.downloadedUrls
              nextIndex := s.nextIndex + 1 } with ⟨ok, s2⟩
        rw [hdl] at hd
        have hrest := ih s2
        rcases hgi : goImgs w outputDir pageUrl rest s2 with ⟨md, d, f, s3⟩
        rw [hgi] at hrest
        have hfinal : (goImgs w outputDir pageUrl (src :: rest) s).2.2.2 = s3 := by
          simp only [goImgs, hsd, if_false, admitURL, hmem, ite_false, hdl, hgi]
          cases ok <;> simp
        rw [hfinal]
        obtain ⟨⟨hdu2, hni2, hv2, hp2, hil2⟩, hhs2, nf2, hf2⟩ := hd
        obtain ⟨⟨hv3, hp3⟩, hdu3, hni3, hhs3, nf3, hf3⟩ := hrest
        refine ⟨⟨by rw [hv3, hv2], by rw [hp3, hp2]⟩, ?_, ?_, ?_, ?_⟩
        · intro x hx
          refine hdu3 x ?_
          rw [hdu2]
          exact List.mem_cons_of_mem _ hx
        · have h21 : s2.nextIndex = s.nextIndex + 1 := hni2
          have h31 : s2.nextIndex ≤ s3.nextIndex := hni3
          omega
        · intro h hh
          exact hhs3 h (hhs2 h hh)
        · refine ⟨nf3 ++ nf2, ?_⟩
          rw [hf3, hf2]
          simp [List.append_assoc]

theorem visitPage_crawlVisit (w : World) (outputDir : String)
    (exts : List String) (url : String) (s : CrawlState) :
    (∀ r, visitPage w outputDir exts url s = Sum.inl r →
      CrawlVisit s r.2.2.2.2) ∧
    (∀ q, visitPage w outputDir exts url s = Sum.inr q →
      CrawlVisit s q.2.2.2.2.2) := by
  by_cases hearly : url ∈ s.visited ∨ w.shutdownFlag = true
  · have hv : visitPage w outputDir exts url s = Sum.inl ([], 0, 0, 0, s) := by
      simp [visitPage, hearly]
    constructor
    · intro r hr
      rw [hv] at hr
      cases hr
      exact crawlVisit_refl s
    · intro q hq
      rw [hv] at hq
      cases hq
  · have hfresh : url ∉ s.visited := fun hm => hearly (Or.inl hm)
    have hvs1 : CrawlVisit s
        { s with
            visited := url :: s.visited
            pageLog := s.pageLog ++ [url] } := by
      refine ⟨fun x hx => List.mem_cons_of_mem _ hx, [url], rfl,
        List.nodup_singleton _, ?_, ?_⟩
      · intro p hp
        rw [List.mem_singleton] at hp
        subst hp
        exact hfresh
      · intro x
        simp [List.mem_cons, or_comm]
    cases hpg : w.pages url with
    | none =>
      have hv : visitPage w outputDir exts url s =
          Sum.inl ([], 0, 0, 1,
            { s with
                visited := url :: s.visited
                pageLog := s.pageLog ++ [url] }) := by
        simp [visitPage, hearly, hpg]
      constructor
      · intro r hr
        rw [hv] at hr
        cases hr
        exact hvs1
      · intro q hq
        rw [hv] at hq
        cases hq
    | some pg =>
      rcases hgi : goImgs w outputDir url (pg.imgSrcs.filter (keepSrc exts))
        { s with
            visited := url :: s.visited
            pageLog := s.pageLog ++ [url] } with ⟨md, d, f, s2⟩
      have hst := goImgs_state w outputDir url (pg.imgSrcs.filter (keepSrc exts))
        { s with
            visited := url :: s.visited
            pageLog := s.pageLog ++ [url] }
      rw [hgi] at hst
      have hvs2 : CrawlVisit
          { s with
              visited := url :: s.visited
              pageLog := s.pageLog ++ [url] } s2 :=
        crawlVisit_of_eq hst.1.1 hst.1.2
      have hv : visitPage w outputDir exts url s =
          Sum.inr (pg, md, (pg.imgSrcs.filter (keepSrc exts)).length, d, f, s2) := by
        simp [visitPage, hearly, hpg, hgi]
      constructor
      · intro r hr
        rw [hv] at hr
        cases hr
      · intro q hq
        rw [hv] at hq
        cases hq
        exact crawlVisit_trans hvs1 hvs2

theorem goLinks_crawlVisit (w : World) (pageUrl : String)
    (recur : String → CrawlState → List MetaTriple × Nat × Nat × Nat × CrawlState)
    (hrec : ∀ u t, CrawlVisit t (recur u t).2.2.2.2) :
    ∀ (links : List String) (s : CrawlState),
      CrawlVisit s (goLinks w pageUrl recur links s).2.2.2.2 := by
  intro links
  induction links with
  | nil => intro s; exact crawlVisit_refl s
  | cons link rest ih =>
    intro s
    by_cases hnet : netlocOf (w.urljoin pageUrl link) = netlocOf pageUrl
    · rcases hr : recur (w.urljoin pageUrl link) s with ⟨m, f, d, fa, s1⟩
      have h1 : CrawlVisit s s1 := by
        have h := hrec (w.urljoin pageUrl link) s
        rw [hr] at h
        exact h
      rcases hg : goLinks w pageUrl recur rest s1 with ⟨m2, f2, d2, fa2, s2⟩
      have h2 : CrawlVisit s1 s2 := by
        have h := ih s1
        rw [hg] at h
        exact h
      have hfin : (goLinks w pageUrl recur (link :: rest) s).2.2.2.2 = s2 := by
        simp [goLinks, hnet, hr, hg]
      rw [hfin]
      exact crawlVisit_trans h1 h2
    · have hfin : goLinks w pageUrl recur (link :: rest) s =
          goLinks w pageUrl recur rest s := by
        simp [goLinks, hnet]
      rw [hfin]
      exact ih s

theorem core_crawlVisit (w : World) (outputDir : String) (exts : List String) :
    ∀ (n : Nat) (url : String) (s : CrawlState),
      CrawlVisit s (core w outputDir exts n url s).2.2.2.2 := by
  intro n
  induction n with
  | zero =>
    intro url s
    cases hv : visitPage w outputDir exts url s with
    | inl r =>
      have h := (visitPage_crawlVisit w outputDir exts url s).1 r hv
      have hfin : core w outputDir exts 0 url s = r := by simp [core, hv]
      rw [hfin]
      exact h
    | inr q =>
      have h := (visitPage_crawlVisit w outputDir exts url s).2 q hv
      obtain ⟨pg, md, found, d, f, s2⟩ := q
      have hfin : (core w outputDir exts 0 url s).2.2.2.2 = s2 := by
        simp [core, hv]
      rw [hfin]
      exact h
  | succ n ih =>
    intro url s
    cases hv : visitPage w outputDir exts url s with
    | inl r =>
      have h := (visitPage_crawlVisit w outputDir exts url s).1 r hv
      have hfin : core w outputDir exts (n + 1) url s = r := by simp [core, hv]
      rw [hfin]
      exact h
    | inr q =>
      have h1 := (visitPage_crawlVisit w outputDir exts url s).2 q hv
      obtain ⟨pg, md, found, d, f, s2⟩ := q
      have h2 := goLinks_crawlVisit w url (core w outputDir exts n)
        (fun u t => ih u t) pg.links s2
      rcases hg : goLinks w url (core w outputDir exts n) pg.links s2 with
        ⟨m2, f2, d2, fa2, s3⟩
      rw [hg] at h2
      have hfin : (core w outputDir exts (n + 1) url s).2.2.2.2 = s3 := by
        simp [core, hv, hg]
      rw [hfin]
      exact crawlVisit_trans h1 h2

theorem parse_and_download_crawlVisit (w : World) (outputDir : String)
    (exts : List String) (depth : Int) (url : String) (s : CrawlState) :
    CrawlVisit s (parse_and_download w outputDir exts depth url s).2.2.2.2 := by
  unfold parse_and_download
  by_cases hd : depth < 0
  · simp only [hd, if_true]
    exact crawlVisit_refl s
  · simp only [hd, if_false]
    exact core_crawlVisit w outputDir exts depth.toNat url s

theorem foldl_processSeed_crawlVisit (w : World) (outputDir : String)
    (exts : List String) (depth : Int) :
    ∀ (seeds : List String) (acc : RunAcc),
      CrawlVisit acc.state
        (seeds.foldl (processSeed w outputDir exts depth) acc).state := by
  intro seeds
  induction seeds with
  | nil => intro acc; exact crawlVisit_refl _
  | cons u us ih =>
    intro acc
    refine crawlVisit_trans ?_ (ih (processSeed w outputDir exts depth acc u))
    exact parse_and_download_crawlVisit w outputDir exts depth u acc.state

theorem crawlVisit_pageLog_mono {s s1 : CrawlState} (h : CrawlVisit s s1) :
    ∀ p ∈ s.pageLog, p ∈ s1.pageLog := by
  obtain ⟨-, np, hp, -, -, -⟩ := h
  intro p hp2
  rw [hp]
  exact List.mem_append_left _ hp2

theorem reachN_step (w : World) (a m : String) (pg : Page) (href : String)
    (hpg : w.pages a = some pg) (hhref : href ∈ pg.links)
    (hm : m = w.urljoin a href) (hnet : netlocOf m = netlocOf a) :
    ∀ (k : Nat) (b : String), reachN w k m b → reachN w (k + 1) a b := by
  intro k
  induction k with
  | zero =>
    intro b hb
    exact ⟨a, pg, href, rfl, hpg, hhref, hb ▸ hm, hb ▸ hnet⟩
  | succ k ih =>
    intro b hb
    obtain ⟨z, pg2, href2, hz, hpg2, hh2, hb2, hn2⟩ := hb
    exact ⟨z, pg2, href2, ih z hz, hpg2, hh2, hb2, hn2⟩

theorem visitPage_pageLog (w : World) (outputDir : String) (exts : List String)
    (url : String) (s : CrawlState) :
    (∀ r, visitPage w outputDir exts url s = Sum.inl r →
      r.2.2.2.2 = s ∨ r.2.2.2.2.pageLog = s.pageLog ++ [url]) ∧
    (∀ q, visitPage w outputDir exts url s = Sum.inr q →
      w.pages url = some q.1 ∧ q.2.2.2.2.2.pageLog = s.pageLog ++ [url]) := by
  by_cases hearly : url ∈ s.visited ∨ w.shutdownFlag = true
  · have hv : visitPage w outputDir exts url s = Sum.inl ([], 0, 0, 0, s) := by
      simp [visitPage, hearly]
    refine ⟨fun r hr => ?_, fun q hq => ?_⟩
    · rw [hv] at hr
      cases hr
      exact Or.inl rfl
    · rw [hv] at hq
      cases hq
  · cases hpg : w.pages url with
    | none =>
      have hv : visitPage w outputDir exts url s =
          Sum.inl ([], 0, 0, 1,
            { s with
                visited := url :: s.visited
                pageLog := s.pageLog ++ [url] }) := by
        simp [visitPage, hearly, hpg]
      refine ⟨fun r hr => ?_, fun q hq => ?_⟩
      · rw [hv] at hr
        cases hr
        exact Or.inr rfl
      · rw [hv] at hq
        cases hq
    | some pg =>
      rcases hgi : goImgs w outputDir url (pg.imgSrcs.filter (keepSrc exts))
        { s with
            visited := url :: s.visited
            pageLog := s.pageLog ++ [url] } with ⟨md, d, f, s2⟩
      have hst := goImgs_state w outputDir url (pg.imgSrcs.filter (keepSrc exts))
        { s with
            visited := url :: s.visited
            pageLog := s.pageLog ++ [url] }
      rw [hgi] at hst
      have hv : visitPage w outputDir exts url s =
          Sum.inr (pg, md, (pg.imgSrcs.filter (keepSrc exts)).length, d, f, s2) := by
        simp [visitPage, hearly, hpg, hgi]
      refine ⟨fun r hr => ?_, fun q hq => ?_⟩
      · rw [hv] at hr
        cases hr
      · rw [hv] at hq
        cases hq
        exact ⟨rfl, hst.1.2⟩

theorem visitPage_fresh (w : World) (outputDir : String) (exts : List String)
    (url : String) (s : CrawlState) (hfresh : url ∉ s.visited)
    (hsd : w.shutdownFlag = false) :
    (∀ r, visitPage w outputDir exts url s = Sum.inl r →
      r.2.2.2.2.pageLog = s.pageLog ++ [url]) ∧
    (∀ q, visitPage w outputDir exts url s = Sum.inr q →
      q.2.2.2.2.2.pageLog = s.pageLog ++ [url]) := by
  have hearly : ¬ (url ∈ s.visited ∨ w.shutdownFlag = true) := by
    rintro (h | h)
    · exact hfresh h
    · rw [hsd] at h
      cases h
  cases hpg : w.pages url with
  | none =>
    have hv : visitPage w outputDir exts url s =
        Sum.inl ([], 0, 0, 1,
          { s with
              visited := url :: s.visited
              pageLog := s.pageLog ++ [url] }) := by
      simp [visitPage, hearly, hpg]
    refine ⟨fun r hr => ?_, fun q hq => ?_⟩
    · rw [hv] at hr
      cases hr
      rfl
    · rw [hv] at hq
      cases hq
  | some pg =>
    rcases hgi : goImgs w outputDir url (pg.imgSrcs.filter (keepSrc exts))
      { s with
          visited := url :: s.visited
          pageLog := s.pageLog ++ [url] } with ⟨md, d, f, s2⟩
    have hst := goImgs_state w outputDir url (pg.imgSrcs.filter (keepSrc exts))
      { s with
          visited := url :: s.visited
          pageLog := s.pageLog ++ [url] }
    rw [hgi] at hst
    have hv : visitPage w outputDir exts url s =
        Sum.inr (pg, md, (pg.imgSrcs.filter (keepSrc exts)).length, d, f, s2) := by
      simp [visitPage, hearly, hpg, hgi]
    refine ⟨fun r hr => ?_, fun q hq => ?_⟩
    · rw [hv] at hr
      cases hr
    · rw [hv] at hq
      cases hq
      exact hst.1.2

theorem goLinks_reach (w : World) (url : String) (n : Nat)
    (recur : String → CrawlState → List MetaTriple × Nat × Nat × Nat × CrawlState)
    (hrec : ∀ u t p, p ∈ (recur u t).2.2.2.2.pageLog →
      p ∈ t.pageLog ∨ ∃ k ≤ n, reachN w k u p)
    (pg : Page) (hpg : w.pages url = some pg) :
    ∀ (links : List String), (∀ l ∈ links, l ∈ pg.links) →
      ∀ (s : CrawlState) (p : String),
        p ∈ (goLinks w url recur links s).2.2.2.2.pageLog →
        p ∈ s.pageLog ∨ ∃ k ≤ n + 1, reachN w k url p := by
  intro links
  induction links with
  | nil =>
    intro _ s p hp
    simp only [goLinks] at hp
    exact Or.inl hp
  | cons link rest ih =>
    intro hsub s p hp
    by_cases hnet : netlocOf (w.urljoin url link) = netlocOf url
    · rcases hr : recur (w.urljoin url link) s with ⟨m, f, d, fa, s1⟩
      rcases hg : goLinks w url recur rest s1 with ⟨m2, f2, d2, fa2, s2⟩
      have hp2 : p ∈ s2.pageLog := by
        have hfin : (goLinks w url recur (link :: rest) s).2.2.2.2 = s2 := by
          simp [goLinks, hnet, hr, hg]
        rw [hfin] at hp
        exact hp
      have hih := ih (fun l hl => hsub l (List.mem_cons_of_mem _ hl)) s1 p
        (by rw [hg]; exact hp2)
      rcases hih with hps1 | hreach
      · have hrr := hrec (w.urljoin url link) s p (by rw [hr]; exact hps1)
        rcases hrr with hps | ⟨k, hk, hre⟩
        · exact Or.inl hps
        · refine Or.inr ⟨k + 1, by omega, ?_⟩
          exact reachN_step w url (w.urljoin url link) pg link hpg
            (hsub link (List.mem_cons_self _ _)) rfl hnet k p hre
      · exact Or.inr hreach
    · have hfin : goLinks w url recur (link :: rest) s =
          goLinks w url recur rest s := by
        simp [goLinks, hnet]
      rw [hfin] at hp
      exact ih (fun l hl => hsub l (List.mem_cons_of_mem _ hl)) s p hp

theorem core_reach (w : World) (outputDir : String) (exts : List String) :
    ∀ (n : Nat) (url : String) (s : CrawlState) (p : String),
      p ∈ (core w outputDir exts n url s).2.2.2.2.pageLog →
      p ∈ s.pageLog ∨ ∃ k ≤ n, reachN w k url p := by
  intro n
  induction n with
  | zero =>
    intro url s p hp
    cases hv : visitPage w outputDir exts url s with
    | inl r =>
      have hfin : core w outputDir exts 0 url s = r := by simp [core, hv]
      rw [hfin] at hp
      rcases (visitPage_pageLog w outputDir exts url s).1 r hv with heq | hlog
      · rw [heq] at hp
        exact Or.inl hp
      · rw [hlog] at hp
        rcases List.mem_append.mp hp with h | h
        · exact Or.inl h
        · rw [List.mem_singleton] at h
          exact Or.inr ⟨0, le_refl _, h⟩
    | inr q =>
      obtain ⟨pg, md, found, d, f, s2⟩ := q
      have hfin : (core w outputDir exts 0 url s).2.2.2.2 = s2 := by
        simp [core, hv]
      rw [hfin] at hp
      have hlog := ((visitPage_pageLog w outputDir exts url s).2 _ hv).2
      rw [hlog] at hp
      rcases List.mem_append.mp hp with h | h
      · exact Or.inl h
      · rw [List.mem_singleton] at h
        exact Or.inr ⟨0, le_refl _, h⟩
  | succ n ih =>
    intro url s p hp
    cases hv : visitPage w outputDir exts url s with
    | inl r =>
      have hfin : core w outputDir exts (n + 1) url s = r := by simp [core, hv]
      rw [hfin] at hp
      rcases (visitPage_pageLog w outputDir exts url s).1 r hv with heq | hlog
      · rw [heq] at hp
        exact Or.inl hp
      · rw [hlog] at hp
        rcases List.mem_append.mp hp with h | h
        · exact Or.inl h
        · rw [List.mem_singleton] at h
          exact Or.inr ⟨0, by omega, h⟩
    | inr q =>
      obtain ⟨pg, md, found, d, f, s2⟩ := q
      have hpg := ((visitPage_pageLog w outputDir exts url s).2 _ hv).1
      have hlog := ((visitPage_pageLog w outputDir exts url s).2 _ hv).2
      rcases hg : goLinks w url (core w outputDir exts n) pg.links s2 with
        ⟨m2, f2, d2, fa2, s3⟩
      have hfin : (core w outputDir exts (n + 1) url s).2.2.2.2 = s3 := by
        simp [core, hv, hg]
      rw [hfin] at hp
      have hre := goLinks_reach w url n (core w outputDir exts n)
        (fun u t p2 hp2 => ih u t p2 hp2) pg hpg pg.links (fun l hl => hl) s2 p
        (by rw [hg]; exact hp)
      rcases hre with hps2 | hreach
      · rw [hlog] at hps2
        rcases List.mem_append.mp hps2 with h | h
        · exact Or.inl h
        · rw [List.mem_singleton] at h
          exact Or.inr ⟨0, by omega, h⟩
      · exact Or.inr hreach

theorem core_logs_self (w : World) (outputDir : String) (exts : List String)
    (n : Nat) (url : String) (s : CrawlState) (hfresh : url ∉ s.visited)
    (hsd : w.shutdownFlag = false) :
    url ∈ (core w outputDir exts n url s).2.2.2.2.pageLog := by
  cases n with
  | zero =>
    cases hv : visitPage w outputDir exts url s with
    | inl r =>
      have hfin : core w outputDir exts 0 url s = r := by simp [core, hv]
      rw [hfin]
      rw [(visitPage_fresh w outputDir exts url s hfresh hsd).1 r hv]
      exact List.mem_append_right _ (List.mem_singleton_self _)
    | inr q =>
      obtain ⟨pg, md, found, d, f, s2⟩ := q
      have hfin : (core w outputDir exts 0 url s).2.2.2.2 = s2 := by
        simp [core, hv]
      rw [hfin]
      have hlog := (visitPage_fresh w outputDir exts url s hfresh hsd).2 _ hv
      rw [hlog]
      exact List.mem_append_right _ (List.mem_singleton_self _)
  | succ n =>
    cases hv : visitPage w outputDir exts url s with
    | inl r =>
      have hfin : core w outputDir exts (n + 1) url s = r := by simp [core, hv]
      rw [hfin]
      rw [(visitPage_fresh w outputDir exts url s hfresh hsd).1 r hv]
      exact List.mem_append_right _ (List.mem_singleton_self _)
    | inr q =>
      obtain ⟨pg, md, found, d, f, s2⟩ := q
      have hlog := (visitPage_fresh w outputDir exts url s hfresh hsd).2 _ hv
      rcases hg : goLinks w url (core w outputDir exts n) pg.links s2 with
        ⟨m2, f2, d2, fa2, s3⟩
      have hfin : (core w outputDir exts (n + 1) url s).2.2.2.2 = s3 := by
        simp [core, hv, hg]
      rw [hfin]
      have hcv : CrawlVisit s2 s3 := by
        have h := goLinks_crawlVisit w url (core w outputDir exts n)
          (fun u t => core_crawlVisit w outputDir exts n u t) pg.links s2
        rw [hg] at h
        exact h
      refine crawlVisit_pageLog_mono hcv url ?_
      rw [hlog]
      exact List.mem_append_right _ (List.mem_singleton_self _)

theorem goLinks_hits (w : World) (url : String)
    (recur : String → CrawlState → List MetaTriple × Nat × Nat × Nat × CrawlState)
    (hrecA : ∀ u t, CrawlVisit t (recur u t).2.2.2.2)
    (hrecB : ∀ u t, u ∉ t.visited → w.shutdownFlag = false →
      u ∈ (recur u t).2.2.2.2.pageLog)
    (hsd : w.shutdownFlag = false) (link0 : String)
    (hnet : netlocOf (w.urljoin url link0) = netlocOf url) :
    ∀ (links : List String) (s : CrawlState), link0 ∈ links →
      (w.urljoin url link0 ∉ s.visited ∨ w.urljoin url link0 ∈ s.pageLog) →
      w.urljoin url link0 ∈ (goLinks w url recur links s).2.2.2.2.pageLog := by
  intro links
  induction links with
  | nil =>
    intro s h0 _
    cases h0
  | cons l rest ih =>
    intro s hmem hpre
    by_cases hnetl : netlocOf (w.urljoin url l) = netlocOf url
    · rcases hr : recur (w.urljoin url l) s with ⟨m, f, d, fa, s1⟩
      have hcv1 : CrawlVisit s s1 := by
        have h := hrecA (w.urljoin url l) s
        rw [hr] at h
        exact h
      rcases hg : goLinks w url recur rest s1 with ⟨m2, f2, d2, fa2, s2⟩
      have hcv2 : CrawlVisit s1 s2 := by
        have h := goLinks_crawlVisit w url recur hrecA rest s1
        rw [hg] at h
        exact h
      have hfin : (goLinks w url recur (l :: rest) s).2.2.2.2 = s2 := by
        simp [goLinks, hnetl, hr, hg]
      rw [hfin]
      by_cases hl : l = link0
      · subst hl
        rcases hpre with hfresh | hlog
        · have hb := hrecB (w.urljoin url l) s hfresh hsd
          rw [hr] at hb
          exact crawlVisit_pageLog_mono hcv2 _ hb
        · exact crawlVisit_pageLog_mono hcv2 _ (crawlVisit_pageLog_mono hcv1 _ hlog)
      · have hmem2 : link0 ∈ rest := by
          rcases List.mem_cons.mp hmem with h | h
          · exact absurd h.symm hl
          · exact h
        have hpre1 : w.urljoin url link0 ∉ s1.visited ∨
            w.urljoin url link0 ∈ s1.pageLog := by
          rcases hpre with hfresh | hlog
          · obtain ⟨-, np, hp, -, -, hv⟩ := hcv1
            by_cases hx : w.urljoin url link0 ∈ s1.visited
            · rcases (hv _).mp hx with h | h
              · exact absurd h hfresh
              · exact Or.inr (by rw [hp]; exact List.mem_append_right _ h)
            · exact Or.inl hx
          · exact Or.inr (crawlVisit_pageLog_mono hcv1 _ hlog)
        have hh := ih s1 hmem2 hpre1
        rw [hg] at hh
        exact hh
    · have hmem2 : link0 ∈ rest := by
        rcases List.mem_cons.mp hmem with h | h
        · exfalso
          apply hnetl
          rw [← h]
          exact hnet
        · exact h
      have hfin : goLinks w url recur (l :: rest) s =
          goLinks w url recur rest s := by
        simp [goLinks, hnetl]
      rw [hfin]
      exact ih s hmem2 hpre

theorem core_hits (w : World) (outputDir : String) (exts : List String)
    (n : Nat) (url link0 : String) (s : CrawlState) (pg : Page)
    (hsd : w.shutdownFlag = false) (hfresh : url ∉ s.visited)
    (hpg : w.pages url = some pg) (hlink : link0 ∈ pg.links)
    (hnet : netlocOf (w.urljoin url link0) = netlocOf url)
    (htfresh : w.urljoin url link0 ∉ s.visited) :
    w.urljoin url link0 ∈ (core w outputDir exts (n + 1) url s).2.2.2.2.pageLog := by
  have hearly : ¬ (url ∈ s.visited ∨ w.shutdownFlag = true) := by
    rintro (h | h)
    · exact hfresh h
    · rw [hsd] at h
      cases h
  rcases hgi : goImgs w outputDir url (pg.imgSrcs.filter (keepSrc exts))
    { s with
        visited := url :: s.visited
        pageLog := s.pageLog ++ [url] } with ⟨md, d, f, s2⟩
  have hst := goImgs_state w outputDir url (pg.imgSrcs.filter (keepSrc exts))
    { s with
        visited := url :: s.visited
        pageLog := s.pageLog ++ [url] }
  rw [hgi] at hst
  have hv : visitPage w outputDir exts url s =
      Sum.inr (pg, md, (pg.imgSrcs.filter (keepSrc exts)).length, d, f, s2) := by
    simp [visitPage, hearly, hpg, hgi]
  rcases hg : goLinks w url (core w outputDir exts n) pg.links s2 with
    ⟨m2, f2, d2, fa2, s3⟩
  have hfin : (core w outputDir exts (n + 1) url s).2.2.2.2 = s3 := by
    simp [core, hv, hg]
  rw [hfin]
  have hv2 : s2.visited = url :: s.visited := hst.1.1
  have hp2 : s2.pageLog = s.pageLog ++ [url] := hst.1.2
  have hpre : w.urljoin url link0 ∉ s2.visited ∨ w.urljoin url link0 ∈ s2.pageLog := by
    by_cases hequ : w.urljoin url link0 = url
    · refine Or.inr ?_
      rw [hp2, hequ]
      exact List.mem_append_right _ (List.mem_singleton_self _)
    · refine Or.inl ?_
      rw [hv2]
      intro hx
      rcases List.mem_cons.mp hx with h | h
      · exact hequ h
      · exact htfresh h
  have hh := goLinks_hits w url (core w outputDir exts n)
    (fun u t => core_crawlVisit w outputDir exts n u t)
    (fun u t hu hs => core_logs_self w outputDir exts n u t hu hs)
    hsd link0 hnet pg.links s2 hlink hpre
  rw [hg] at hh
  exact hh

/-! ### Claim C3 (corrected): the visited check is not atomic -/

/-- Claim C3, counterexample to the claim as stated: the check and the
insert of lines 86-88 are two separate steps with no lock held, so two
concurrent tasks recursing toward the same page can interleave — both pass
the check, then both insert and fetch, and the page is fetched twice in one
run. -/
theorem C3_counterexample :
    (runSched twoTaskModel [0, 1, 0, 1]).fetchLog = ["http://h/p", "http://h/p"] ∧
    ¬ (runSched twoTaskModel [0, 1, 0, 1]).fetchLog.Nodup :=
  ⟨by decide, by decide⟩

/-- Claim C3 (amended): the visited check-and-insert is a plain check then
insert with no lock around it, so atomicity holds only per schedule step; in
any run in which each task's check and insert execute without another task's
step between them (in particular the serialised schedule of `runCrawler`),
every page URL is fetched at most once, however many parent pages link to it
and however many tasks recurse toward it. -/
theorem C3_amended (w : World) (outputDir : String) (exts : List String)
    (depth : Int) (seeds : List String) (file0 : MetaFile)
    (files0 : List (String × Bytes)) :
    (runCrawler w outputDir exts depth seeds file0 files0).state.pageLog.Nodup := by
  have h := foldl_processSeed_crawlVisit w outputDir exts depth seeds
    { file := file0, sitesVisited := 0, found := 0, downloaded := 0, failed := 0,
      state := { downloadedUrls := load_existing_metadata file0,
                 hashSet := loadHashes file0, nextIndex := 0, files := files0,
                 visited := [], pageLog := [], imgLog := [] } }
  obtain ⟨-, np, hp, nd, -, -⟩ := h
  have hr : (runCrawler w outputDir exts depth seeds file0 files0).state.pageLog =
      [] ++ np := hp
  rw [List.nil_append] at hr
  rw [hr]
  exact nd

/-! ### Claim C5 (confirmed): the depth bound -/

/-- Claim C5: the depth parameter bounds recursion exactly.  A negative
depth is a no-op returning empty metadata and zero counters (not an error);
every page fetched by a crawl at depth `d` is reachable from the seed within
`d.toNat` same-origin hops (so depth 0 fetches only the seed and follows no
hyperlink); and with depth positive the crawl really does recurse into each
same-authority hyperlink of a fetched page — the linked page is fetched
whenever it was not already visited. -/
theorem C5_theorem (w : World) (outputDir : String) (exts : List String)
    (depth : Int) (url : String) (s : CrawlState) :
    (depth < 0 →
      parse_and_download w outputDir exts depth url s = ([], 0, 0, 0, s)) ∧
    (∀ p ∈ (parse_and_download w outputDir exts depth url s).2.2.2.2.pageLog,
      p ∈ s.pageLog ∨ ∃ k ≤ depth.toNat, reachN w k url p) ∧
    (depth = 0 →
      ∀ p ∈ (parse_and_download w outputDir exts 0 url s).2.2.2.2.pageLog,
        p ∈ s.pageLog ∨ p = url) ∧
    (∀ (pg : Page) (link : String), 0 < depth → w.shutdownFlag = false →
      url ∉ s.visited → w.pages url = some pg → link ∈ pg.links →
      netlocOf (w.urljoin url link) = netlocOf url →
      w.urljoin url link ∉ s.visited →
      w.urljoin url link ∈
        (parse_and_download w outputDir exts depth url s).2.2.2.2.pageLog) := by
  refine ⟨?_, ?_, ?_, ?_⟩
  · intro h
    simp [parse_and_download, h]
  · intro p hp
    by_cases hd : depth < 0
    · simp only [parse_and_download, hd, if_true] at hp
      exact Or.inl hp
    · simp only [parse_and_download, hd, if_false] at hp
      exact core_reach w outputDir exts depth.toNat url s p hp
  · intro hd p hp
    have hz : ¬ ((0 : Int) < 0) := by omega
    simp only [parse_and_download, hz, if_false] at hp
    rcases core_reach w outputDir exts (Int.toNat 0) url s p hp with h | ⟨k, hk, hre⟩
    · exact Or.inl h
    · have hk0 : k = 0 := by omega
      subst hk0
      exact Or.inr hre
  · intro pg link hdpos hsd hfresh hpg hlink hnet htfresh
    have hnn : ¬ depth < 0 := by omega
    simp only [parse_and_download, hnn, if_false]
    obtain ⟨m, hm⟩ : ∃ m, depth.toNat = m + 1 := ⟨depth.toNat - 1, by omega⟩
    rw [hm]
    exact core_hits w outputDir exts m url link s pg hsd hfresh hpg hlink hnet htfresh

/-- Claim C5 witness: `linkWorld`, whose seed links to one same-origin child
page and one foreign page; at depth 1 the child is fetched. -/
theorem C5_witness :
    ((0 : Int) < 1) ∧
    linkWorld.shutdownFlag = false ∧
    ("http://h/p" : String) ∉ emptyState.visited ∧
    linkWorld.pages "http://h/p" = some ⟨[], ["/c", "http://other/x"]⟩ ∧
    ("/c" : String) ∈ (⟨[], ["/c", "http://other/x"]⟩ : Page).links ∧
    netlocOf (linkWorld.urljoin "http://h/p" "/c") = netlocOf "http://h/p" ∧
    linkWorld.urljoin "http://h/p" "/c" ∉ emptyState.visited ∧
    linkWorld.urljoin "http://h/p" "/c" ∈
      (parse_and_download linkWorld "out" [".png"] 1 "http://h/p"
        emptyState).2.2.2.2.pageLog :=
  ⟨by decide, rfl, by decide, rfl, by decide, by decide, by decide,
    (C5_theorem linkWorld "out" [".png"] 1 "http://h/p" emptyState).2.2.2
      ⟨[], ["/c", "http://other/x"]⟩ "/c" (by decide) rfl (by decide) rfl
      (by decide) (by decide) (by decide)⟩

/-! ### Filename arithmetic: the padded index determines the file name -/

theorem digitsVal_append_single (xs : List Char) (c : Char) :
    digitsVal (xs ++ [c]) = 10 * digitsVal xs + (c.toNat - 48) := by
  unfold digitsVal
  rw [List.foldl_append]
  rfl

theorem digitsVal_replicate_zero (k : Nat) (ds : List Char) :
    digitsVal (List.replicate k '0' ++ ds) = digitsVal ds := by
  induction k with
  | zero => rfl
  | succ k ih =>
    rw [List.replicate_succ, List.cons_append]
    unfold digitsVal at ih ⊢
    rw [List.foldl_cons]
    have h0 : (10 * 0 + (('0' : Char).toNat - 48)) = 0 := by decide
    rw [h0]
    exact ih

theorem natDigitsAux_acc : ∀ (fuel n : Nat) (acc : List Char),
    natDigitsAux fuel n acc = natDigitsAux fuel n [] ++ acc := by
  intro fuel
  induction fuel with
  | zero => intro n acc; simp [natDigitsAux]
  | succ f ih =>
    intro n acc
    by_cases h : n < 10
    · simp [natDigitsAux, h]
    · simp only [natDigitsAux, h, if_false]
      rw [ih (n / 10) (digitCh (n % 10) :: acc), ih (n / 10) [digitCh (n % 10)]]
      simp

theorem digitsVal_natDigitsAux : ∀ (fuel n : Nat), n < fuel →
    digitsVal (natDigitsAux fuel n []) = n := by
  intro fuel
  induction fuel with
  | zero => intro n h; omega
  | succ f ih =>
    intro n h
    by_cases h10 : n < 10
    · simp only [natDigitsAux, h10, if_true]
      interval_cases n <;> decide
    · simp only [natDigitsAux, h10, if_false]
      rw [natDigitsAux_acc f (n / 10) [digitCh (n % 10)], digitsVal_append_single]
      have hrec : digitsVal (natDigitsAux f (n / 10) []) = n / 10 :=
        ih (n / 10) (by omega)
      rw [hrec]
      have hm : n % 10 < 10 := Nat.mod_lt _ (by omega)
      have hd : (digitCh (n % 10)).toNat - 48 = n % 10 := by
        set m := n % 10 with hmm
        interval_cases m <;> decide
      rw [hd]
      omega

theorem natDigits_val (n : Nat) : digitsVal (natDigits n) = n :=
  digitsVal_natDigitsAux (n + 1) n (by omega)

theorem pad6_val (n : Nat) : digitsVal ((pad6 n).data) = n := by
  show digitsVal (List.replicate (6 - (natDigits n).length) '0' ++ natDigits n) = n
  rw [digitsVal_replicate_zero, natDigits_val]

theorem pad6_data_inj (i j : Nat) (h : (pad6 i).data = (pad6 j).data) : i = j := by
  have hi := pad6_val i
  rw [h, pad6_val] at hi
  omega

theorem digitCh_isDig (n : Nat) (h : n < 10) : isDig (digitCh n) := by
  interval_cases n <;> exact ⟨by decide, by decide⟩

theorem natDigitsAux_digits : ∀ (fuel n : Nat) (acc : List Char),
    (∀ c ∈ acc, isDig c) → ∀ c ∈ natDigitsAux fuel n acc, isDig c := by
  intro fuel
  induction fuel with
  | zero => intro n acc hacc; exact hacc
  | succ f ih =>
    intro n acc hacc c hc
    by_cases h : n < 10
    · simp only [natDigitsAux, h, if_true] at hc
      rcases List.mem_cons.mp hc with hc | hc
      · subst hc; exact digitCh_isDig n h
      · exact hacc c hc
    · simp only [natDigitsAux, h, if_false] at hc
      refine ih (n / 10) (digitCh (n % 10) :: acc) ?_ c hc
      intro c2 hc2
      rcases List.mem_cons.mp hc2 with hc2 | hc2
      · subst hc2; exact digitCh_isDig _ (Nat.mod_lt _ (by omega))
      · exact hacc c2 hc2

theorem pad6_digits (n : Nat) : ∀ c ∈ (pad6 n).data, isDig c := by
  intro c hc
  have hc2 : c ∈ List.replicate (6 - (natDigits n).length) '0' ++ natDigits n := hc
  rcases List.mem_append.mp hc2 with h | h
  · have := List.eq_of_mem_replicate h
    subst this
    exact ⟨by decide, by decide⟩
  · exact natDigitsAux_digits (n + 1) n [] (by intro c2 hc3; cases hc3) c h

theorem digit_block_inj : ∀ (p1 p2 r1 r2 : List Char),
    (∀ c ∈ p1, isDig c) → (∀ c ∈ p2, isDig c) →
    p1 ++ '.' :: r1 = p2 ++ '.' :: r2 → p1 = p2 ∧ r1 = r2 := by
  intro p1
  induction p1 with
  | nil =>
    intro p2 r1 r2 _ hp2 heq
    cases p2 with
    | nil =>
      refine ⟨rfl, ?_⟩
      simpa using heq
    | cons d p2t =>
      exfalso
      injection heq with h1 h2
      have hd := hp2 d (List.mem_cons_self _ _)
      rw [← h1] at hd
      exact absurd hd.1 (by decide)
  | cons d p1t ih =>
    intro p2 r1 r2 hp1 hp2 heq
    cases p2 with
    | nil =>
      exfalso
      injection heq with h1 h2
      have hd := hp1 d (List.mem_cons_self _ _)
      rw [h1] at hd
      exact absurd hd.1 (by decide)
    | cons e p2t =>
      injection heq with h1 h2
      subst h1
      obtain ⟨ha, hb⟩ := ih p2t r1 r2
        (fun c hc => hp1 c (List.mem_cons_of_mem _ hc))
        (fun c hc => hp2 c (List.mem_cons_of_mem _ hc)) h2
      exact ⟨by rw [ha], hb⟩

theorem mkFname_inj (i j : Nat) (e1 e2 : String)
    (h1 : ∃ cs, e1.data = '.' :: cs) (h2 : ∃ cs, e2.data = '.' :: cs)
    (heq : mkFname i e1 = mkFname j e2) : i = j := by
  obtain ⟨cs1, hc1⟩ := h1
  obtain ⟨cs2, hc2⟩ := h2
  have hdata := congrArg String.data heq
  simp only [mkFname, String.data_append, List.append_assoc] at hdata
  rw [hc1, hc2] at hdata
  have h5 := List.append_cancel_left hdata
  obtain ⟨hpad, -⟩ := digit_block_inj _ _ _ _ (pad6_digits i) (pad6_digits j) h5
  exact pad6_data_inj i j hpad

theorem extOf_dot (p : String) :
    extOf p = "" ∨ ∃ cs, (extOf p).data = '.' :: cs := by
  unfold extOf
  dsimp only
  split
  · exact Or.inl rfl
  · split
    · exact Or.inr ⟨_, rfl⟩
    · exact Or.inl rfl

theorem usedExt_dot (u : String) :
    ∃ cs, (if extOf (pathOf u) = "" then ".jpg"
           else extOf (pathOf u)).data = '.' :: cs := by
  rcases extOf_dot (pathOf u) with h | ⟨cs, h⟩
  · rw [if_pos h]
    exact ⟨_, rfl⟩
  · have hne : extOf (pathOf u) ≠ "" := by
      intro he
      rw [he] at h
      cases h
    rw [if_neg hne]
    exact ⟨cs, h⟩

theorem lookup_cons_self (k : String) (b : Bytes) (es : List (String × Bytes)) :
    List.lookup k ((k, b) :: es) = some b := by
  simp [List.lookup_cons]

theorem lookup_cons_ne (a k : String) (b : Bytes) (es : List (String × Bytes))
    (h : ¬ a = k) : List.lookup a ((k, b) :: es) = es.lookup a := by
  simp [List.lookup_cons, beq_false_of_ne h]

theorem lookup_mem : ∀ (l : List (String × Bytes)) (a : String) (v : Bytes),
    l.lookup a = some v → (a, v) ∈ l := by
  intro l
  induction l with
  | nil => intro a v h; cases h
  | cons p es ih =>
    intro a v h
    rcases p with ⟨k, b⟩
    by_cases hab : a = k
    · subst hab
      rw [lookup_cons_self] at h
      cases h
      exact List.mem_cons_self _ _
    · rw [lookup_cons_ne a k b es hab] at h
      exact List.mem_cons_of_mem _ (ih a v h)

theorem filesInv_fresh (outputDir : String) (s : CrawlState)
    (hinv : FilesInv outputDir s) (ext : String)
    (hext : ∃ cs, ext.data = '.' :: cs) :
    ∀ pr ∈ s.files, pr.1 ≠ outputDir ++ "/" ++ mkFname s.nextIndex ext := by
  intro pr hpr heq
  obtain ⟨i, e2, hi, he2, hkey⟩ := hinv pr hpr
  rw [hkey] at heq
  have hm : mkFname i e2 = mkFname s.nextIndex ext := by
    have hd := congrArg String.data heq
    simp only [String.data_append] at hd
    exact String.ext (List.append_cancel_left hd)
  have := mkFname_inj i s.nextIndex e2 ext he2 hext hm
  omega

theorem goImgsFiles_succAux (w : World) (outputDir pageUrl src : String)
    (rest : List String)
    (ih : ∀ (s : CrawlState), FilesInv outputDir s →
      FilesInv outputDir (goImgs w outputDir pageUrl rest s).2.2.2 ∧
      (∀ key v, s.files.lookup key = some v →
        (goImgs w outputDir pageUrl rest s).2.2.2.files.lookup key = some v) ∧
      (∀ t ∈ (goImgs w outputDir pageUrl rest s).1,
        ∃ bs, w.images t.2.1 = some bs ∧
          (goImgs w outputDir pageUrl rest s).2.2.2.files.lookup
            (outputDir ++ "/" ++ t.1) = some bs))
    (s s2 : CrawlState) (bs : Bytes)
    (hinv : FilesInv outputDir s)
    (himg : w.images (w.urljoin pageUrl src) = some bs)
    (hfiles2 : s2.files = (outputDir ++ "/" ++
      mkFname s.nextIndex
        (if extOf (pathOf (w.urljoin pageUrl src)) = "" then ".jpg"
         else extOf (pathOf (w.urljoin pageUrl src))), bs) :: s.files)
    (hnext2 : s2.nextIndex = s.nextIndex + 1)
    (hfin : goImgs w outputDir pageUrl (src :: rest) s =
      ((mkFname s.nextIndex
          (if extOf (pathOf (w.urljoin pageUrl src)) = "" then ".jpg"
           else extOf (pathOf (w.urljoin pageUrl src))),
        w.urljoin pageUrl src, pageUrl) ::
          (goImgs w outputDir pageUrl rest s2).1,
       (goImgs w outputDir pageUrl rest s2).2.1 + 1,
       (goImgs w outputDir pageUrl rest s2).2.2.1,
       (goImgs w outputDir pageUrl rest s2).2.2.2)) :
    FilesInv outputDir (goImgs w outputDir pageUrl (src :: rest) s).2.2.2 ∧
    (∀ key v, s.files.lookup key = some v →
      (goImgs w outputDir pageUrl (src :: rest) s).2.2.2.files.lookup key = some v) ∧
    (∀ t ∈ (goImgs w outputDir pageUrl (src :: rest) s).1,
      ∃ bs2, w.images t.2.1 = some bs2 ∧
        (goImgs w outputDir pageUrl (src :: rest) s).2.2.2.files.lookup
          (outputDir ++ "/" ++ t.1) = some bs2) := by
  have hextd := usedExt_dot (w.urljoin pageUrl src)
  have hinv2 : FilesInv outputDir s2 := by
    intro pr hpr
    rw [hfiles2] at hpr
    rcases List.mem_cons.mp hpr with hpr | hpr
    · subst hpr
      exact ⟨s.nextIndex, _, by omega, hextd, rfl⟩
    · obtain ⟨i, e2, hi, he2, hkey⟩ := hinv pr hpr
      exact ⟨i, e2, by omega, he2, hkey⟩
  have hrest := ih s2 hinv2
  rw [hfin]
  refine ⟨hrest.1, ?_, ?_⟩
  · intro key v hkv
    refine hrest.2.1 key v ?_
    rw [hfiles2]
    have hne : key ≠ outputDir ++ "/" ++
        mkFname s.nextIndex
          (if extOf (pathOf (w.urljoin pageUrl src)) = "" then ".jpg"
           else extOf (pathOf (w.urljoin pageUrl src))) :=
      filesInv_fresh outputDir s hinv _ hextd (key, v) (lookup_mem s.files key v hkv)
    rw [lookup_cons_ne key _ bs s.files hne]
    exact hkv
  · intro t ht
    rcases List.mem_cons.mp ht with hth | hth
    · subst hth
      refine ⟨bs, himg, ?_⟩
      refine hrest.2.1 _ bs ?_
      rw [hfiles2]
      exact lookup_cons_self _ bs s.files
    · exact hrest.2.2 t hth

theorem goImgsFiles (w : World) (outputDir pageUrl : String) :
    ∀ (srcs : List String) (s : CrawlState), FilesInv outputDir s →
      FilesInv outputDir (goImgs w outputDir pageUrl srcs s).2.2.2 ∧
      (∀ key v, s.files.lookup key = some v →
        (goImgs w outputDir pageUrl srcs s).2.2.2.files.lookup key = some v) ∧
      (∀ t ∈ (goImgs w outputDir pageUrl srcs s).1,
        ∃ bs, w.images t.2.1 = some bs ∧
          (goImgs w outputDir pageUrl srcs s).2.2.2.files.lookup
            (outputDir ++ "/" ++ t.1) = some bs) := by
  intro srcs
  induction srcs with
  | nil =>
    intro s hinv
    refine ⟨hinv, fun key v h => h, ?_⟩
    intro t ht
    simp [goImgs] at ht
  | cons src rest ih =>
    intro s hinv
    by_cases hsd : w.shutdownFlag = true
    · have hfin : goImgs w outputDir pageUrl (src :: rest) s = ([], 0, 0, s) := by
        simp [goImgs, hsd]
      rw [hfin]
      refine ⟨hinv, fun key v h => h, ?_⟩
      intro t ht
      simp at ht
    · by_cases hmem : w.urljoin pageUrl src ∈ s.downloadedUrls
      · have hfin : goImgs w outputDir pageUrl (src :: rest) s =
            goImgs w outputDir pageUrl rest s := by
          simp [goImgs, hsd, admitURL, hmem]
        rw [hfin]
        exact ih s hinv
      · have hinv1 : ∀ t : CrawlState, t.files = s.files →
            t.nextIndex = s.nextIndex + 1 → FilesInv outputDir t := by
          intro t hf hn
          intro pr hpr
          rw [hf] at hpr
          obtain ⟨i, e2, hi, he2, hkey⟩ := hinv pr hpr
          exact ⟨i, e2, by omega, he2, hkey⟩
        cases himg : w.images (w.urljoin pageUrl src) with
        | none =>
          rcases hgr : goImgs w outputDir pageUrl rest
            { s with
                downloadedUrls := w.urljoin pageUrl src :: s.downloadedUrls
                nextIndex := s.nextIndex + 1
                imgLog := s.imgLog ++ [w.urljoin pageUrl src] } with ⟨md, d, f, s3⟩
          have hrest := ih
            { s with
                downloadedUrls := w.urljoin pageUrl src :: s.downloadedUrls
                nextIndex := s.nextIndex + 1
                imgLog := s.imgLog ++ [w.urljoin pageUrl src] }
            (hinv1 _ rfl rfl)
          rw [hgr] at hrest
          have hfin : goImgs w outputDir pageUrl (src :: rest) s = (md, d, f + 1, s3) := by
            simp [goImgs, hsd, admitURL, hmem, download_image, himg, hgr]
          rw [hfin]
          exact ⟨hrest.1, fun key v h => hrest.2.1 key v h, hrest.2.2⟩
        | some bs =>
          cases hh : hash_image_bytes w bs with
          | some h0 =>
            by_cases hmemh : h0 ∈ s.hashSet
            · rcases hgr : goImgs w outputDir pageUrl rest
                { s with
                    downloadedUrls := w.urljoin pageUrl src :: s.downloadedUrls
                    nextIndex := s.nextIndex + 1
                    imgLog := s.imgLog ++ [w.urljoin pageUrl src] } with ⟨md, d, f, s3⟩
              have hrest := ih
                { s with
                    downloadedUrls := w.urljoin pageUrl src :: s.downloadedUrls
                    nextIndex := s.nextIndex + 1
                    imgLog := s.imgLog ++ [w.urljoin pageUrl src] }
                (hinv1 _ rfl rfl)
              rw [hgr] at hrest
              have hfin : goImgs w outputDir pageUrl (src :: rest) s =
                  (md, d, f + 1, s3) := by
                simp [goImgs, hsd, admitURL, hmem, download_image, himg, hh, hmemh, hgr]
              rw [hfin]
              exact ⟨hrest.1, fun key v h => hrest.2.1 key v h, hrest.2.2⟩
            · refine goImgsFiles_succAux w outputDir pageUrl src rest ih s
                { s with
                    downloadedUrls := w.urljoin pageUrl src :: s.downloadedUrls
                    hashSet := s.hashSet ++ [h0]
                    nextIndex := s.nextIndex + 1
                    files := (outputDir ++ "/" ++
                      mkFname s.nextIndex
                        (if extOf (pathOf (w.urljoin pageUrl src)) = "" then ".jpg"
                         else extOf (pathOf (w.urljoin pageUrl src))), bs) :: s.files
                    imgLog := s.imgLog ++ [w.urljoin pageUrl src] }
                bs hinv himg rfl rfl ?_
              simp [goImgs, hsd, admitURL, hmem, download_image, himg, hh, hmemh]
          | none =>
            refine goImgsFiles_succAux w outputDir pageUrl src rest ih s
              { s with
                  downloadedUrls := w.urljoin pageUrl src :: s.downloadedUrls
                  nextIndex := s.nextIndex + 1
                  files := (outputDir ++ "/" ++
                    mkFname s.nextIndex
                      (if extOf (pathOf (w.urljoin pageUrl src)) = "" then ".jpg"
                       else extOf (pathOf (w.urljoin pageUrl src))), bs) :: s.files
                  imgLog := s.imgLog ++ [w.urljoin pageUrl src] }
              bs hinv himg rfl rfl ?_
            simp [goImgs, hsd, admitURL, hmem, download_image, himg, hh]

theorem goLinksFiles (w : World) (outputDir pageUrl : String)
    (recur : String → CrawlState → List MetaTriple × Nat × Nat × Nat × CrawlState)
    (hrec : ∀ u t, FilesInv outputDir t →
      FilesInv outputDir (recur u t).2.2.2.2 ∧
      (∀ key v, t.files.lookup key = some v →
        (recur u t).2.2.2.2.files.lookup key = some v) ∧
      (∀ tr ∈ (recur u t).1, ∃ bs, w.images tr.2.1 = some bs ∧
        (recur u t).2.2.2.2.files.lookup (outputDir ++ "/" ++ tr.1) = some bs)) :
    ∀ (links : List String) (s : CrawlState), FilesInv outputDir s →
      FilesInv outputDir (goLinks w pageUrl recur links s).2.2.2.2 ∧
      (∀ key v, s.files.lookup key = some v →
        (goLinks w pageUrl recur links s).2.2.2.2.files.lookup key = some v) ∧
      (∀ tr ∈ (goLinks w pageUrl recur links s).1,
        ∃ bs, w.images tr.2.1 = some bs ∧
          (goLinks w pageUrl recur links s).2.2.2.2.files.lookup
            (outputDir ++ "/" ++ tr.1) = some bs) := by
  intro links
  induction links with
  | nil =>
    intro s hinv
    refine ⟨hinv, fun key v h => h, ?_⟩
    intro tr htr
    simp [goLinks] at htr
  | cons link rest ih =>
    intro s hinv
    by_cases hnet : netlocOf (w.urljoin pageUrl link) = netlocOf pageUrl
    · rcases hr : recur (w.urljoin pageUrl link) s with ⟨m, f, d, fa, s1⟩
      have hA := hrec (w.urljoin pageUrl link) s hinv
      rw [hr] at hA
      rcases hg : goLinks w pageUrl recur rest s1 with ⟨m2, f2, d2, fa2, s2⟩
      have hB := ih s1 hA.1
      rw [hg] at hB
      have hfin : goLinks w pageUrl recur (link :: rest) s =
          (m ++ m2, f + f2, d + d2, fa + fa2, s2) := by
        simp [goLinks, hnet, hr, hg]
      rw [hfin]
      refine ⟨hB.1, ?_, ?_⟩
      · intro key v h
        exact hB.2.1 key v (hA.2.1 key v h)
      · intro tr htr
        rcases List.mem_append.mp htr with htr | htr
        · obtain ⟨bs, hbs, hlk⟩ := hA.2.2 tr htr
          exact ⟨bs, hbs, hB.2.1 _ bs hlk⟩
        · exact hB.2.2 tr htr
    · have hfin : goLinks w pageUrl recur (link :: rest) s =
          goLinks w pageUrl recur rest s := by
        simp [goLinks, hnet]
      rw [hfin]
      exact ih s hinv

theorem visitPageFiles (w : World) (outputDir : String) (exts : List String)
    (url : String) (s : CrawlState) (hinv : FilesInv outputDir s) :
    (∀ r, visitPage w outputDir exts url s = Sum.inl r →
      FilesInv outputDir r.2.2.2.2 ∧
      (∀ key v, s.files.lookup key = some v →
        r.2.2.2.2.files.lookup key = some v) ∧
      r.1 = []) ∧
    (∀ q, visitPage w outputDir exts url s = Sum.inr q →
      FilesInv outputDir q.2.2.2.2.2 ∧
      (∀ key v, s.files.lookup key = some v →
        q.2.2.2.2.2.files.lookup key = some v) ∧
      (∀ t ∈ q.2.1, ∃ bs, w.images t.2.1 = some bs ∧
        q.2.2.2.2.2.files.lookup (outputDir ++ "/" ++ t.1) = some bs)) := by
  by_cases hearly : url ∈ s.visited ∨ w.shutdownFlag = true
  · have hv : visitPage w outputDir exts url s = Sum.inl ([], 0, 0, 0, s) := by
      simp [visitPage, hearly]
    refine ⟨fun r hr => ?_, fun q hq => ?_⟩
    · rw [hv] at hr
      cases hr
      exact ⟨hinv, fun key v h => h, rfl⟩
    · rw [hv] at hq
      cases hq
  · cases hpg : w.pages url with
    | none =>
      have hv : visitPage w outputDir exts url s =
          Sum.inl ([], 0, 0, 1,
            { s with
                visited := url :: s.visited
                pageLog := s.pageLog ++ [url] }) := by
        simp [visitPage, hearly, hpg]
      refine ⟨fun r hr => ?_, fun q hq => ?_⟩
      · rw [hv] at hr
        cases hr
        exact ⟨hinv, fun key v h => h, rfl⟩
      · rw [hv] at hq
        cases hq
    | some pg =>
      rcases hgi : goImgs w outputDir url (pg.imgSrcs.filter (keepSrc exts))
        { s with
            visited := url :: s.visited
            pageLog := s.pageLog ++ [url] } with ⟨md, d, f, s2⟩
      have hgif := goImgsFiles w outputDir url (pg.imgSrcs.filter (keepSrc exts))
        { s with
            visited := url :: s.visited
            pageLog := s.pageLog ++ [url] } hinv
      rw [hgi] at hgif
      have hv : visitPage w outputDir exts url s =
          Sum.inr (pg, md, (pg.imgSrcs.filter (keepSrc exts)).length, d, f, s2) := by
        simp [visitPage, hearly, hpg, hgi]
      refine ⟨fun r hr => ?_, fun q hq => ?_⟩
      · rw [hv] at hr
        cases hr
      · rw [hv] at hq
        cases hq
        exact ⟨hgif.1, hgif.2.1, hgif.2.2⟩

theorem coreFiles (w : World) (outputDir : String) (exts : List String) :
    ∀ (n : Nat) (url : String) (s : CrawlState), FilesInv outputDir s →
      FilesInv outputDir (core w outputDir exts n url s).2.2.2.2 ∧
      (∀ key v, s.files.lookup key = some v →
        (core w outputDir exts n url s).2.2.2.2.files.lookup key = some v) ∧
      (∀ t ∈ (core w outputDir exts n url s).1,
        ∃ bs, w.images t.2.1 = some bs ∧
          (core w outputDir exts n url s).2.2.2.2.files.lookup
            (outputDir ++ "/" ++ t.1) = some bs) := by
  intro n
  induction n with
  | zero =>
    intro url s hinv
    cases hv : visitPage w outputDir exts url s with
    | inl r =>
      have hfin : core w outputDir exts 0 url s = r := by simp [core, hv]
      rw [hfin]
      obtain ⟨h1, h2, h3⟩ := (visitPageFiles w outputDir exts url s hinv).1 r hv
      refine ⟨h1, h2, ?_⟩
      intro t ht
      rw [h3] at ht
      cases ht
    | inr q =>
      obtain ⟨pg, md, found, d, f, s2⟩ := q
      have hfin : core w outputDir exts 0 url s = (md, found, d, f, s2) := by
        simp [core, hv]
      rw [hfin]
      exact (visitPageFiles w outputDir exts url s hinv).2 _ hv
  | succ n ih =>
    intro url s hinv
    cases hv : visitPage w outputDir exts url s with
    | inl r =>
      have hfin : core w outputDir exts (n + 1) url s = r := by simp [core, hv]
      rw [hfin]
      obtain ⟨h1, h2, h3⟩ := (visitPageFiles w outputDir exts url s hinv).1 r hv
      refine ⟨h1, h2, ?_⟩
      intro t ht
      rw [h3] at ht
      cases ht
    | inr q =>
      obtain ⟨pg, md, found, d, f, s2⟩ := q
      obtain ⟨hA1, hA2, hA3⟩ := (visitPageFiles w outputDir exts url s hinv).2 _ hv
      rcases hg : goLinks w url (core w outputDir exts n) pg.links s2 with
        ⟨m2, f2, d2, fa2, s3⟩
      have hB := goLinksFiles w outputDir url (core w outputDir exts n)
        (fun u t hinvt => ih u t hinvt) pg.links s2 hA1
      rw [hg] at hB
      have hfin : core w outputDir exts (n + 1) url s =
          (md ++ m2, found + f2, d + d2, f + fa2, s3) := by
        simp [core, hv, hg]
      rw [hfin]
      refine ⟨hB.1, ?_, ?_⟩
      · intro key v h
        exact hB.2.1 key v (hA2 key v h)
      · intro t ht
        rcases List.mem_append.mp ht with ht | ht
        · obtain ⟨bs, hbs, hlk⟩ := hA3 t ht
          exact ⟨bs, hbs, hB.2.1 _ bs hlk⟩
        · exact hB.2.2 t ht

theorem padFiles (w : World) (outputDir : String) (exts : List String)
    (depth : Int) (url : String) (s : CrawlState) (hinv : FilesInv outputDir s) :
    FilesInv outputDir (parse_and_download w outputDir exts depth url s).2.2.2.2 ∧
    (∀ key v, s.files.lookup key = some v →
      (parse_and_download w outputDir exts depth url s).2.2.2.2.files.lookup key =
        some v) ∧
    (∀ t ∈ (parse_and_download w outputDir exts depth url s).1,
      ∃ bs, w.images t.2.1 = some bs ∧
        (parse_and_download w outputDir exts depth url s).2.2.2.2.files.lookup
          (outputDir ++ "/" ++ t.1) = some bs) := by
  unfold parse_and_download
  by_cases hd : depth < 0
  · simp only [hd, if_true]
    refine ⟨hinv, fun key v h => h, ?_⟩
    intro t ht
    simp at ht
  · simp only [hd, if_false]
    exact coreFiles w outputDir exts depth.toNat url s hinv

theorem fileOK_append (w : World) (file : MetaFile) (rows : List (List String))
    (hok : FileOK w file) (hrows : ∀ row ∈ rows, RowFact w row) :
    FileOK w (append_metadata file rows) := by
  rcases hok with hnone | ⟨rs, hfile, hfacts⟩
  · subst hnone
    exact Or.inr ⟨rows, rfl, hrows⟩
  · subst hfile
    refine Or.inr ⟨rs ++ rows, by simp [append_metadata], ?_⟩
    intro row hr
    rcases List.mem_append.mp hr with hr | hr
    · exact hfacts row hr
    · exact hrows row hr

theorem processSeedFiles (w : World) (outputDir : String) (exts : List String)
    (depth : Int) (acc : RunAcc) (url : String)
    (hinv : FilesInv outputDir acc.state) (hok : FileOK w acc.file) :
    FilesInv outputDir (processSeed w outputDir exts depth acc url).state ∧
    FileOK w (processSeed w outputDir exts depth acc url).file := by
  rcases hp : parse_and_download w outputDir exts depth url acc.state with
    ⟨md, found, d, f, s1⟩
  have hpf := padFiles w outputDir exts depth url acc.state hinv
  rw [hp] at hpf
  have hstate : (processSeed w outputDir exts depth acc url).state = s1 := by
    simp [processSeed, hp]
  have hfile : (processSeed w outputDir exts depth acc url).file =
      append_metadata acc.file (md.map (metaRow w outputDir s1.files)) := by
    simp [processSeed, hp]
  rw [hstate, hfile]
  refine ⟨hpf.1, fileOK_append w acc.file _ hok ?_⟩
  intro row hrow
  obtain ⟨t, ht, hteq⟩ := List.mem_map.mp hrow
  obtain ⟨bs, hbs, hlk⟩ := hpf.2.2 t ht
  refine ⟨t.1, t.2.1, t.2.2, hashCell w s1.files (outputDir ++ "/" ++ t.1),
    by rw [← hteq]; rfl, ?_⟩
  intro bs2 h hbs2 hh
  rw [hbs] at hbs2
  injection hbs2 with hbseq
  subst hbseq
  simp only [hashCell, hlk, hh]

theorem foldFiles (w : World) (outputDir : String) (exts : List String)
    (depth : Int) : ∀ (seeds : List String) (acc : RunAcc),
    FilesInv outputDir acc.state → FileOK w acc.file →
    FilesInv outputDir
      ((seeds.foldl (processSeed w outputDir exts depth) acc)).state ∧
    FileOK w ((seeds.foldl (processSeed w outputDir exts depth) acc)).file := by
  intro seeds
  induction seeds with
  | nil => intro acc hinv hok; exact ⟨hinv, hok⟩
  | cons u us ih =>
    intro acc hinv hok
    have hstep := processSeedFiles w outputDir exts depth acc u hinv hok
    exact ih (processSeed w outputDir exts depth acc u) hstep.1 hstep.2

theorem fileOK_coherent (w : World) (file : MetaFile) (hok : FileOK w file) :
    StoreCoherent w (load_existing_metadata file) (loadHashes file) := by
  intro u hu bs h hbs hh
  rcases hok with hnone | ⟨rows, hfile, hfacts⟩
  · subst hnone
    simp [load_existing_metadata] at hu
  · subst hfile
    simp only [load_existing_metadata] at hu
    obtain ⟨row, hrow, hcol⟩ := List.mem_filterMap.mp hu
    obtain ⟨fname, u2, purl, cell, hroweq, hfact⟩ := hfacts row hrow
    subst hroweq
    have hcv : colValue metaHeader [fname, u2, purl, cell] "image_url" = some u2 :=
      rfl
    rw [hcv] at hcol
    injection hcol with hueq
    subst hueq
    have hcell := hfact bs h hbs hh
    simp only [loadHashes]
    refine List.mem_filterMap.mpr ⟨[fname, u2, purl, cell], hrow, ?_⟩
    have hch : colValue metaHeader [fname, u2, purl, cell] "img_hash" = some cell :=
      rfl
    rw [hch, hcell]

theorem goImgsSim (w : World) (outputDir pageUrl : String) (L H : List String)
    (hcoh : StoreCoherent w L H) :
    ∀ (srcs : List String) (s1 s2 : CrawlState), SimInv L H s1 s2 →
      (∀ t ∈ (goImgs w outputDir pageUrl srcs s1).1, t.2.1 ∈ L) →
      SimInv L H (goImgs w outputDir pageUrl srcs s1).2.2.2
        (goImgs w outputDir pageUrl srcs s2).2.2.2 ∧
      (goImgs w outputDir pageUrl srcs s2).1 = [] ∧
      (goImgs w outputDir pageUrl srcs s2).2.1 = 0 := by
  intro srcs
  induction srcs with
  | nil =>
    intro s1 s2 hsim _
    exact ⟨hsim, rfl, rfl⟩
  | cons src rest ih =>
    intro s1 s2 hsim hmd
    by_cases hsd : w.shutdownFlag = true
    · have h1 : goImgs w outputDir pageUrl (src :: rest) s1 = ([], 0, 0, s1) := by
        simp [goImgs, hsd]
      have h2 : goImgs w outputDir pageUrl (src :: rest) s2 = ([], 0, 0, s2) := by
        simp [goImgs, hsd]
      rw [h1, h2]
      exact ⟨hsim, rfl, rfl⟩
    · by_cases hm1 : w.urljoin pageUrl src ∈ s1.downloadedUrls
      · have hm2 : w.urljoin pageUrl src ∈ s2.downloadedUrls :=
          (hsim.2.1 _).mpr (Or.inl hm1)
        have h1 : goImgs w outputDir pageUrl (src :: rest) s1 =
            goImgs w outputDir pageUrl rest s1 := by
          simp [goImgs, hsd, admitURL, hm1]
        have h2 : goImgs w outputDir pageUrl (src :: rest) s2 =
            goImgs w outputDir pageUrl rest s2 := by
          simp [goImgs, hsd, admitURL, hm2]
        rw [h1, h2]
        rw [h1] at hmd
        exact ih s1 s2 hsim hmd
      · by_cases hmL : w.urljoin pageUrl src ∈ L
        · -- the resumed run skips; the first run attempts the download
          have hm2 : w.urljoin pageUrl src ∈ s2.downloadedUrls :=
            (hsim.2.1 _).mpr (Or.inr hmL)
          have h2 : goImgs w outputDir pageUrl (src :: rest) s2 =
              goImgs w outputDir pageUrl rest s2 := by
            simp [goImgs, hsd, admitURL, hm2]
          have hils : ∀ x, x ∈ s2.downloadedUrls ↔
              (x ∈ w.urljoin pageUrl src :: s1.downloadedUrls ∨ x ∈ L) := by
            intro x
            rw [hsim.2.1 x, List.mem_cons]
            have hxu : x = w.urljoin pageUrl src → x ∈ L := fun he => he ▸ hmL
            tauto
          cases himg : w.images (w.urljoin pageUrl src) with
          | none =>
            have h1 : goImgs w outputDir pageUrl (src :: rest) s1 =
                (fun r => (r.1, r.2.1, r.2.2.1 + 1, r.2.2.2))
                  (goImgs w outputDir pageUrl rest
                    { s1 with
                        downloadedUrls :=
                          w.urljoin pageUrl src :: s1.downloadedUrls
                        nextIndex := s1.nextIndex + 1
                        imgLog := s1.imgLog ++ [w.urljoin pageUrl src] }) := by
              rcases hgr : goImgs w outputDir pageUrl rest
                { s1 with
                    downloadedUrls := w.urljoin pageUrl src :: s1.downloadedUrls
                    nextIndex := s1.nextIndex + 1
                    imgLog := s1.imgLog ++ [w.urljoin pageUrl src] } with ⟨md, d, f, s3⟩
              simp [goImgs, hsd, admitURL, hm1, download_image, himg, hgr]
            rw [h1, h2]
            rw [h1] at hmd
            refine ih _ s2 ⟨hsim.1, hils, hsim.2.2.1, hsim.2.2.2⟩ ?_
            intro t ht
            exact hmd t ht
          | some bs =>
            cases hh : hash_image_bytes w bs with
            | some h0 =>
              by_cases hmemh : h0 ∈ s1.hashSet
              · have h1 : goImgs w outputDir pageUrl (src :: rest) s1 =
                    (fun r => (r.1, r.2.1, r.2.2.1 + 1, r.2.2.2))
                      (goImgs w outputDir pageUrl rest
                        { s1 with
                            downloadedUrls :=
                              w.urljoin pageUrl src :: s1.downloadedUrls
                            nextIndex := s1.nextIndex + 1
                            imgLog := s1.imgLog ++ [w.urljoin pageUrl src] }) := by
                  rcases hgr : goImgs w outputDir pageUrl rest
                    { s1 with
                        downloadedUrls := w.urljoin pageUrl src :: s1.downloadedUrls
                        nextIndex := s1.nextIndex + 1
                        imgLog := s1.imgLog ++ [w.urljoin pageUrl src] } with
                    ⟨md, d, f, s3⟩
                  simp [goImgs, hsd, admitURL, hm1, download_image, himg, hh, hmemh, hgr]
                rw [h1, h2]
                rw [h1] at hmd
                refine ih _ s2 ⟨hsim.1, hils, hsim.2.2.1, hsim.2.2.2⟩ ?_
                intro t ht
                exact hmd t ht
              · -- first run keeps the download and admits its hash
                have hh0H : h0 ∈ H := hcoh _ hmL bs h0 himg hh
                have h1 : goImgs w outputDir pageUrl (src :: rest) s1 =
                    (fun r => ((mkFname s1.nextIndex
                        (if extOf (pathOf (w.urljoin pageUrl src)) = "" then ".jpg"
                         else extOf (pathOf (w.urljoin pageUrl src))),
                      w.urljoin pageUrl src, pageUrl) :: r.1, r.2.1 + 1, r.2.2.1,
                      r.2.2.2))
                      (goImgs w outputDir pageUrl rest
                        { s1 with
                            downloadedUrls :=
                              w.urljoin pageUrl src :: s1.downloadedUrls
                            hashSet := s1.hashSet ++ [h0]
                            nextIndex := s1.nextIndex + 1
                            files := (outputDir ++ "/" ++
                              mkFname s1.nextIndex
                                (if extOf (pathOf (w.urljoin pageUrl src)) = ""
                                 then ".jpg"
                                 else extOf (pathOf (w.urljoin pageUrl src))), bs) ::
                              s1.files
                            imgLog := s1.imgLog ++ [w.urljoin pageUrl src] }) := by
                  rcases hgr : goImgs w outputDir pageUrl rest
                    { s1 with
                        downloadedUrls := w.urljoin pageUrl src :: s1.downloadedUrls
                        hashSet := s1.hashSet ++ [h0]
                        nextIndex := s1.nextIndex + 1
                        files := (outputDir ++ "/" ++
                          mkFname s1.nextIndex
                            (if extOf (pathOf (w.urljoin pageUrl src)) = ""
                             then ".jpg"
                             else extOf (pathOf (w.urljoin pageUrl src))), bs) ::
                          s1.files
                        imgLog := s1.imgLog ++ [w.urljoin pageUrl src] } with
                    ⟨md, d, f, s3⟩
                  simp [goImgs, hsd, admitURL, hm1, download_image, himg, hh, hmemh, hgr]
                rw [h1, h2]
                rw [h1] at hmd
                have hsub1 : ∀ h2 ∈ s1.hashSet ++ [h0], h2 ∈ H := by
                  intro h2 hh2
                  rcases List.mem_append.mp hh2 with hh2 | hh2
                  · exact hsim.2.2.2 h2 hh2
                  · rw [List.mem_singleton] at hh2
                    exact hh2 ▸ hh0H
                refine ih _ s2 ⟨hsim.1, hils, hsim.2.2.1, hsub1⟩ ?_
                intro t ht
                exact hmd _ (List.mem_cons_of_mem _ ht)
            | none =>
              -- first run keeps the download without touching the hash set
              have h1 : goImgs w outputDir pageUrl (src :: rest) s1 =
                  (fun r => ((mkFname s1.nextIndex
                      (if extOf (pathOf (w.urljoin pageUrl src)) = "" then ".jpg"
                       else extOf (pathOf (w.urljoin pageUrl src))),
                    w.urljoin pageUrl src, pageUrl) :: r.1, r.2.1 + 1, r.2.2.1,
                    r.2.2.2))
                    (goImgs w outputDir pageUrl rest
                      { s1 with
                          downloadedUrls :=
                            w.urljoin pageUrl src :: s1.downloadedUrls
                          nextIndex := s1.nextIndex + 1
                          files := (outputDir ++ "/" ++
                            mkFname s1.nextIndex
                              (if extOf (pathOf (w.urljoin pageUrl src)) = ""
                               then ".jpg"
                               else extOf (pathOf (w.urljoin pageUrl src))), bs) ::
                            s1.files
                          imgLog := s1.imgLog ++ [w.urljoin pageUrl src] }) := by
                rcases hgr : goImgs w outputDir pageUrl rest
                  { s1 with
                      downloadedUrls := w.urljoin pageUrl src :: s1.downloadedUrls
                      nextIndex := s1.nextIndex + 1
                      files := (outputDir ++ "/" ++
                        mkFname s1.nextIndex
                          (if extOf (pathOf (w.urljoin pageUrl src)) = ""
                           then ".jpg"
                           else extOf (pathOf (w.urljoin pageUrl src))), bs) ::
                        s1.files
                      imgLog := s1.imgLog ++ [w.urljoin pageUrl src] } with
                  ⟨md, d, f, s3⟩
                simp [goImgs, hsd, admitURL, hm1, download_image, himg, hh, hgr]
              rw [h1, h2]
              rw [h1] at hmd
              refine ih _ s2 ⟨hsim.1, hils, hsim.2.2.1, hsim.2.2.2⟩ ?_
              intro t ht
              exact hmd _ (List.mem_cons_of_mem _ ht)
        · -- both runs attempt the download and both fail identically
          have hm2 : w.urljoin pageUrl src ∉ s2.downloadedUrls := by
            intro hx
            rcases (hsim.2.1 _).mp hx with hx | hx
            · exact hm1 hx
            · exact hmL hx
          have hils : ∀ x, x ∈ w.urljoin pageUrl src :: s2.downloadedUrls ↔
              (x ∈ w.urljoin pageUrl src :: s1.downloadedUrls ∨ x ∈ L) := by
            intro x
            rw [List.mem_cons, List.mem_cons, hsim.2.1 x]
            tauto
          cases himg : w.images (w.urljoin pageUrl src) with
          | none =>
            have h1 : goImgs w outputDir pageUrl (src :: rest) s1 =
                (fun r => (r.1, r.2.1, r.2.2.1 + 1, r.2.2.2))
                  (goImgs w outputDir pageUrl rest
                    { s1 with
                        downloadedUrls :=
                          w.urljoin pageUrl src :: s1.downloadedUrls
                        nextIndex := s1.nextIndex + 1
                        imgLog := s1.imgLog ++ [w.urljoin pageUrl src] }) := by
              rcases hgr : goImgs w outputDir pageUrl rest
                { s1 with
                    downloadedUrls := w.urljoin pageUrl src :: s1.downloadedUrls
                    nextIndex := s1.nextIndex + 1
                    imgLog := s1.imgLog ++ [w.urljoin pageUrl src] } with ⟨md, d, f, s3⟩
              simp [goImgs, hsd, admitURL, hm1, download_image, himg, hgr]
            have h2 : goImgs w outputDir pageUrl (src :: rest) s2 =
                (fun r => (r.1, r.2.1, r.2.2.1 + 1, r.2.2.2))
                  (goImgs w outputDir pageUrl rest
                    { s2 with
                        downloadedUrls :=
                          w.urljoin pageUrl src :: s2.downloadedUrls
                        nextIndex := s2.nextIndex + 1
                        imgLog := s2.imgLog ++ [w.urljoin pageUrl src] }) := by
              rcases hgr : goImgs w outputDir pageUrl rest
                { s2 with
                    downloadedUrls := w.urljoin pageUrl src :: s2.downloadedUrls
                    nextIndex := s2.nextIndex + 1
                    imgLog := s2.imgLog ++ [w.urljoin pageUrl src] } with ⟨md, d, f, s3⟩
              simp [goImgs, hsd, admitURL, hm2, download_image, himg, hgr]
            rw [h1, h2]
            rw [h1] at hmd
            have hrec := ih
              { s1 with
                  downloadedUrls := w.urljoin pageUrl src :: s1.downloadedUrls
                  nextIndex := s1.nextIndex + 1
                  imgLog := s1.imgLog ++ [w.urljoin pageUrl src] }
              { s2 with
                  downloadedUrls := w.urljoin pageUrl src :: s2.downloadedUrls
                  nextIndex := s2.nextIndex + 1
                  imgLog := s2.imgLog ++ [w.urljoin pageUrl src] }
              ⟨hsim.1, hils, hsim.2.2.1, hsim.2.2.2⟩ (fun t ht => hmd t ht)
            exact ⟨hrec.1, by rw [hrec.2.1], by rw [hrec.2.2]⟩
          | some bs =>
            cases hh : hash_image_bytes w bs with
            | some h0 =>
              by_cases hmemh : h0 ∈ s1.hashSet
              · have hmemh2 : h0 ∈ s2.hashSet :=
                  (hsim.2.2.1 h0).mpr (hsim.2.2.2 h0 hmemh)
                have h1 : goImgs w outputDir pageUrl (src :: rest) s1 =
                    (fun r => (r.1, r.2.1, r.2.2.1 + 1, r.2.2.2))
                      (goImgs w outputDir pageUrl rest
                        { s1 with
                            downloadedUrls :=
                              w.urljoin pageUrl src :: s1.downloadedUrls
                            nextIndex := s1.nextIndex + 1
                            imgLog := s1.imgLog ++ [w.urljoin pageUrl src] }) := by
                  rcases hgr : goImgs w outputDir pageUrl rest
                    { s1 with
                        downloadedUrls := w.urljoin pageUrl src :: s1.downloadedUrls
                        nextIndex := s1.nextIndex + 1
                        imgLog := s1.imgLog ++ [w.urljoin pageUrl src] } with
                    ⟨md, d, f, s3⟩
                  simp [goImgs, hsd, admitURL, hm1, download_image, himg, hh, hmemh, hgr]
                have h2 : goImgs w outputDir pageUrl (src :: rest) s2 =
                    (fun r => (r.1, r.2.1, r.2.2.1 + 1, r.2.2.2))
                      (goImgs w outputDir pageUrl rest
                        { s2 with
                            downloadedUrls :=
                              w.urljoin pageUrl src :: s2.downloadedUrls
                            nextIndex := s2.nextIndex + 1
                            imgLog := s2.imgLog ++ [w.urljoin pageUrl src] }) := by
                  rcases hgr : goImgs w outputDir pageUrl rest
                    { s2 with
                        downloadedUrls := w.urljoin pageUrl src :: s2.downloadedUrls
                        nextIndex := s2.nextIndex + 1
                        imgLog := s2.imgLog ++ [w.urljoin pageUrl src] } with
                    ⟨md, d, f, s3⟩
                  simp [goImgs, hsd, admitURL, hm2, download_image, himg, hh, hmemh2, hgr]
                rw [h1, h2]
                rw [h1] at hmd
                have hrec := ih
                  { s1 with
                      downloadedUrls := w.urljoin pageUrl src :: s1.downloadedUrls
                      nextIndex := s1.nextIndex + 1
                      imgLog := s1.imgLog ++ [w.urljoin pageUrl src] }
                  { s2 with
                      downloadedUrls := w.urljoin pageUrl src :: s2.downloadedUrls
                      nextIndex := s2.nextIndex + 1
                      imgLog := s2.imgLog ++ [w.urljoin pageUrl src] }
                  ⟨hsim.1, hils, hsim.2.2.1, hsim.2.2.2⟩ (fun t ht => hmd t ht)
                exact ⟨hrec.1, by rw [hrec.2.1], by rw [hrec.2.2]⟩
              · -- the first run would keep this download, contradicting u not in L
                exfalso
                apply hmL
                refine hmd (mkFname s1.nextIndex
                    (if extOf (pathOf (w.urljoin pageUrl src)) = "" then ".jpg"
                     else extOf (pathOf (w.urljoin pageUrl src))),
                  w.urljoin pageUrl src, pageUrl) ?_
                rcases hgr : goImgs w outputDir pageUrl rest
                  { s1 with
                      downloadedUrls := w.urljoin pageUrl src :: s1.downloadedUrls
                      hashSet := s1.hashSet ++ [h0]
                      nextIndex := s1.nextIndex + 1
                      files := (outputDir ++ "/" ++
                        mkFname s1.nextIndex
                          (if extOf (pathOf (w.urljoin pageUrl src)) = ""
                           then ".jpg"
                           else extOf (pathOf (w.urljoin pageUrl src))), bs) ::
                        s1.files
                      imgLog := s1.imgLog ++ [w.urljoin pageUrl src] } with
                  ⟨md, d, f, s3⟩
                have h1 : goImgs w outputDir pageUrl (src :: rest) s1 =
                    ((mkFname s1.nextIndex
                        (if extOf (pathOf (w.urljoin pageUrl src)) = "" then ".jpg"
                         else extOf (pathOf (w.urljoin pageUrl src))),
                      w.urljoin pageUrl src, pageUrl) :: md, d + 1, f, s3) := by
                  simp [goImgs, hsd, admitURL, hm1, download_image, himg, hh, hmemh, hgr]
                rw [h1]
                exact List.mem_cons_self _ _
            | none =>
              -- the first run would keep this download, contradicting u not in L
              exfalso
              apply hmL
              refine hmd (mkFname s1.nextIndex
                  (if extOf (pathOf (w.urljoin pageUrl src)) = "" then ".jpg"
                   else extOf (pathOf (w.urljoin pageUrl src))),
                w.urljoin pageUrl src, pageUrl) ?_
              rcases hgr : goImgs w outputDir pageUrl rest
                { s1 with
                    downloadedUrls := w.urljoin pageUrl src :: s1.downloadedUrls
                    nextIndex := s1.nextIndex + 1
                    files := (outputDir ++ "/" ++
                      mkFname s1.nextIndex
                        (if extOf (pathOf (w.urljoin pageUrl src)) = ""
                         then ".jpg"
                         else extOf (pathOf (w.urljoin pageUrl src))), bs) ::
                      s1.files
                    imgLog := s1.imgLog ++ [w.urljoin pageUrl src] } with
                ⟨md, d, f, s3⟩
              have h1 : goImgs w outputDir pageUrl (src :: rest) s1 =
                  ((mkFname s1.nextIndex
                      (if extOf (pathOf (w.urljoin pageUrl src)) = "" then ".jpg"
                       else extOf (pathOf (w.urljoin pageUrl src))),
                    w.urljoin pageUrl src, pageUrl) :: md, d + 1, f, s3) := by
                simp [goImgs, hsd, admitURL, hm1, download_image, himg, hh, hgr]
              rw [h1]
              exact List.mem_cons_self _ _

theorem visitPageSim (w : World) (outputDir : String) (exts : List String)
    (url : String) (L H : List String) (hcoh : StoreCoherent w L H)
    (s1 s2 : CrawlState) (hsim : SimInv L H s1 s2) :
    (∀ r, visitPage w outputDir exts url s1 = Sum.inl r →
      ∃ r2, visitPage w outputDir exts url s2 = Sum.inl r2 ∧
        SimInv L H r.2.2.2.2 r2.2.2.2.2 ∧ r2.1 = [] ∧ r2.2.2.1 = 0) ∧
    (∀ q, visitPage w outputDir exts url s1 = Sum.inr q →
      (∀ t ∈ q.2.1, t.2.1 ∈ L) →
      ∃ q2, visitPage w outputDir exts url s2 = Sum.inr q2 ∧ q2.1 = q.1 ∧
        SimInv L H q.2.2.2.2.2 q2.2.2.2.2.2 ∧ q2.2.1 = [] ∧ q2.2.2.2.1 = 0) := by
  have hvis : s2.visited = s1.visited := hsim.1
  by_cases hearly : url ∈ s1.visited ∨ w.shutdownFlag = true
  · have hearly2 : url ∈ s2.visited ∨ w.shutdownFlag = true := by
      rw [hvis]
      exact hearly
    have hv1 : visitPage w outputDir exts url s1 = Sum.inl ([], 0, 0, 0, s1) := by
      simp [visitPage, hearly]
    have hv2 : visitPage w outputDir exts url s2 = Sum.inl ([], 0, 0, 0, s2) := by
      simp [visitPage, hearly2]
    refine ⟨fun r hr => ?_, fun q hq => ?_⟩
    · rw [hv1] at hr
      cases hr
      exact ⟨([], 0, 0, 0, s2), hv2, hsim, rfl, rfl⟩
    · rw [hv1] at hq
      cases hq
  · have hearly2 : ¬ (url ∈ s2.visited ∨ w.shutdownFlag = true) := by
      rw [hvis]
      exact hearly
    have hsim1 : SimInv L H
        { s1 with
            visited := url :: s1.visited
            pageLog := s1.pageLog ++ [url] }
        { s2 with
            visited := url :: s2.visited
            pageLog := s2.pageLog ++ [url] } := by
      refine ⟨?_, hsim.2.1, hsim.2.2.1, hsim.2.2.2⟩
      show url :: s2.visited = url :: s1.visited
      rw [hvis]
    cases hpg : w.pages url with
    | none =>
      have hv1 : visitPage w outputDir exts url s1 =
          Sum.inl ([], 0, 0, 1,
            { s1 with
                visited := url :: s1.visited
                pageLog := s1.pageLog ++ [url] }) := by
        simp [visitPage, hearly, hpg]
      have hv2 : visitPage w outputDir exts url s2 =
          Sum.inl ([], 0, 0, 1,
            { s2 with
                visited := url :: s2.visited
                pageLog := s2.pageLog ++ [url] }) := by
        simp [visitPage, hearly2, hpg]
      refine ⟨fun r hr => ?_, fun q hq => ?_⟩
      · rw [hv1] at hr
        cases hr
        exact ⟨_, hv2, hsim1, rfl, rfl⟩
      · rw [hv1] at hq
        cases hq
    | some pg =>
      rcases hgi1 : goImgs w outputDir url (pg.imgSrcs.filter (keepSrc exts))
        { s1 with
            visited := url :: s1.visited
            pageLog := s1.pageLog ++ [url] } with ⟨md1, d1, f1, s1b⟩
      rcases hgi2 : goImgs w outputDir url (pg.imgSrcs.filter (keepSrc exts))
        { s2 with
            visited := url :: s2.visited
            pageLog := s2.pageLog ++ [url] } with ⟨md2, d2, f2, s2b⟩
      have hv1 : visitPage w outputDir exts url s1 =
          Sum.inr (pg, md1, (pg.imgSrcs.filter (keepSrc exts)).length, d1, f1, s1b) := by
        simp [visitPage, hearly, hpg, hgi1]
      have hv2 : visitPage w outputDir exts url s2 =
          Sum.inr (pg, md2, (pg.imgSrcs.filter (keepSrc exts)).length, d2, f2, s2b) := by
        simp [visitPage, hearly2, hpg, hgi2]
      refine ⟨fun r hr => ?_, fun q hq hqL => ?_⟩
      · rw [hv1] at hr
        cases hr
      · rw [hv1] at hq
        cases hq
        have hgs := goImgsSim w outputDir url L H hcoh
          (pg.imgSrcs.filter (keepSrc exts)) _ _ hsim1
          (by rw [hgi1]; exact hqL)
        rw [hgi1, hgi2] at hgs
        exact ⟨_, hv2, rfl, hgs.1, hgs.2.1, hgs.2.2⟩

theorem goLinksSim (w : World) (pageUrl : String) (L H : List String)
    (recur : String → CrawlState → List MetaTriple × Nat × Nat × Nat × CrawlState)
    (hrec : ∀ u t1 t2, SimInv L H t1 t2 → (∀ tr ∈ (recur u t1).1, tr.2.1 ∈ L) →
      SimInv L H (recur u t1).2.2.2.2 (recur u t2).2.2.2.2 ∧
      (recur u t2).1 = [] ∧ (recur u t2).2.2.1 = 0) :
    ∀ (links : List String) (s1 s2 : CrawlState), SimInv L H s1 s2 →
      (∀ tr ∈ (goLinks w pageUrl recur links s1).1, tr.2.1 ∈ L) →
      SimInv L H (goLinks w pageUrl recur links s1).2.2.2.2
        (goLinks w pageUrl recur links s2).2.2.2.2 ∧
      (goLinks w pageUrl recur links s2).1 = [] ∧
      (goLinks w pageUrl recur links s2).2.2.1 = 0 := by
  intro links
  induction links with
  | nil =>
    intro s1 s2 hsim _
    exact ⟨hsim, rfl, rfl⟩
  | cons link rest ih =>
    intro s1 s2 hsim hmd
    by_cases hnet : netlocOf (w.urljoin pageUrl link) = netlocOf pageUrl
    · rcases hr1 : recur (w.urljoin pageUrl link) s1 with ⟨m1, f1, d1, fa1, t1⟩
      rcases hr2 : recur (w.urljoin pageUrl link) s2 with ⟨m2, f2, d2, fa2, t2⟩
      rcases hg1 : goLinks w pageUrl recur rest t1 with ⟨n1, g1, e1, x1, u1⟩
      rcases hg2 : goLinks w pageUrl recur rest t2 with ⟨n2, g2, e2, x2, u2⟩
      have hfin1 : goLinks w pageUrl recur (link :: rest) s1 =
          (m1 ++ n1, f1 + g1, d1 + e1, fa1 + x1, u1) := by
        simp [goLinks, hnet, hr1, hg1]
      have hfin2 : goLinks w pageUrl recur (link :: rest) s2 =
          (m2 ++ n2, f2 + g2, d2 + e2, fa2 + x2, u2) := by
        simp [goLinks, hnet, hr2, hg2]
      rw [hfin1] at hmd
      have hmd1 : ∀ tr ∈ (recur (w.urljoin pageUrl link) s1).1, tr.2.1 ∈ L := by
        intro tr htr
        rw [hr1] at htr
        exact hmd tr (List.mem_append_left _ htr)
      have hstep := hrec (w.urljoin pageUrl link) s1 s2 hsim hmd1
      rw [hr1, hr2] at hstep
      have hrest := ih t1 t2 hstep.1 (by
        rw [hg1]
        intro tr htr
        exact hmd tr (List.mem_append_right _ htr))
      rw [hg1, hg2] at hrest
      rw [hfin1, hfin2]
      refine ⟨hrest.1, ?_, ?_⟩
      · show m2 ++ n2 = []
        have hm2 : m2 = [] := hstep.2.1
        have hn2 : n2 = [] := hrest.2.1
        rw [hm2, hn2]
        rfl
      · show d2 + e2 = 0
        have hd2 : d2 = 0 := hstep.2.2
        have he2 : e2 = 0 := hrest.2.2
        omega
    · have hfin1 : goLinks w pageUrl recur (link :: rest) s1 =
          goLinks w pageUrl recur rest s1 := by
        simp [goLinks, hnet]
      have hfin2 : goLinks w pageUrl recur (link :: rest) s2 =
          goLinks w pageUrl recur rest s2 := by
        simp [goLinks, hnet]
      rw [hfin1, hfin2]
      rw [hfin1] at hmd
      exact ih s1 s2 hsim hmd

theorem coreSim (w : World) (outputDir : String) (exts : List String)
    (L H : List String) (hcoh : StoreCoherent w L H) :
    ∀ (n : Nat) (url : String) (s1 s2 : CrawlState), SimInv L H s1 s2 →
      (∀ t ∈ (core w outputDir exts n url s1).1, t.2.1 ∈ L) →
      SimInv L H (core w outputDir exts n url s1).2.2.2.2
        (core w outputDir exts n url s2).2.2.2.2 ∧
      (core w outputDir exts n url s2).1 = [] ∧
      (core w outputDir exts n url s2).2.2.1 = 0 := by
  intro n
  induction n with
  | zero =>
    intro url s1 s2 hsim hmd
    cases hv : visitPage w outputDir exts url s1 with
    | inl r =>
      obtain ⟨r2, hv2, hs, hr2, hd2⟩ :=
        (visitPageSim w outputDir exts url L H hcoh s1 s2 hsim).1 r hv
      have hfin1 : core w outputDir exts 0 url s1 = r := by simp [core, hv]
      have hfin2 : core w outputDir exts 0 url s2 = r2 := by simp [core, hv2]
      rw [hfin1, hfin2]
      exact ⟨hs, hr2, hd2⟩
    | inr q =>
      obtain ⟨pg, md, found, d, f, s1b⟩ := q
      have hfin1 : core w outputDir exts 0 url s1 = (md, found, d, f, s1b) := by
        simp [core, hv]
      rw [hfin1] at hmd
      obtain ⟨q2, hv2, hpg2, hs, hq2, hd2⟩ :=
        (visitPageSim w outputDir exts url L H hcoh s1 s2 hsim).2 _ hv hmd
      obtain ⟨pg2, md2, found2, d2, f2, s2b⟩ := q2
      have hfin2 : core w outputDir exts 0 url s2 = (md2, found2, d2, f2, s2b) := by
        simp [core, hv2]
      rw [hfin1, hfin2]
      exact ⟨hs, hq2, hd2⟩
  | succ n ih =>
    intro url s1 s2 hsim hmd
    cases hv : visitPage w outputDir exts url s1 with
    | inl r =>
      obtain ⟨r2, hv2, hs, hr2, hd2⟩ :=
        (visitPageSim w outputDir exts url L H hcoh s1 s2 hsim).1 r hv
      have hfin1 : core w outputDir exts (n + 1) url s1 = r := by simp [core, hv]
      have hfin2 : core w outputDir exts (n + 1) url s2 = r2 := by simp [core, hv2]
      rw [hfin1, hfin2]
      exact ⟨hs, hr2, hd2⟩
    | inr q =>
      obtain ⟨pg, md, found, d, f, s1b⟩ := q
      rcases hg1 : goLinks w url (core w outputDir exts n) pg.links s1b with
        ⟨n1, g1, e1, x1, u1⟩
      have hfin1 : core w outputDir exts (n + 1) url s1 =
          (md ++ n1, found + g1, d + e1, f + x1, u1) := by
        simp [core, hv, hg1]
      rw [hfin1] at hmd
      obtain ⟨q2, hv2, hpg2, hs, hq2, hd2⟩ :=
        (visitPageSim w outputDir exts url L H hcoh s1 s2 hsim).2 _ hv
          (fun t ht => hmd t (List.mem_append_left _ ht))
      obtain ⟨pg2, md2, found2, d2, f2, s2b⟩ := q2
      have hpgeq : pg2 = pg := hpg2
      rw [hpgeq] at hv2
      rcases hg2 : goLinks w url (core w outputDir exts n) pg.links s2b with
        ⟨n2, g2, e2, x2, u2⟩
      have hfin2 : core w outputDir exts (n + 1) url s2 =
          (md2 ++ n2, found2 + g2, d2 + e2, f2 + x2, u2) := by
        simp [core, hv2, hg2]
      have hrest := goLinksSim w url L H (core w outputDir exts n)
        (fun u t1 t2 hsim2 hmd2 => ih u t1 t2 hsim2 hmd2) pg.links s1b s2b hs
        (by
          rw [hg1]
          intro tr htr
          exact hmd tr (List.mem_append_right _ htr))
      rw [hg1, hg2] at hrest
      rw [hfin1, hfin2]
      refine ⟨hrest.1, ?_, ?_⟩
      · show md2 ++ n2 = []
        have hmd2 : md2 = [] := hq2
        have hn2 : n2 = [] := hrest.2.1
        rw [hmd2, hn2]
        rfl
      · show d2 + e2 = 0
        have h1 : d2 = 0 := hd2
        have h2 : e2 = 0 := hrest.2.2
        omega

theorem padSim (w : World) (outputDir : String) (exts : List String)
    (depth : Int) (L H : List String) (hcoh : StoreCoherent w L H)
    (url : String) (s1 s2 : CrawlState) (hsim : SimInv L H s1 s2)
    (hmd : ∀ t ∈ (parse_and_download w outputDir exts depth url s1).1, t.2.1 ∈ L) :
    SimInv L H (parse_and_download w outputDir exts depth url s1).2.2.2.2
      (parse_and_download w outputDir exts depth url s2).2.2.2.2 ∧
    (parse_and_download w outputDir exts depth url s2).1 = [] ∧
    (parse_and_download w outputDir exts depth url s2).2.2.1 = 0 := by
  by_cases hd : depth < 0
  · have e1 : parse_and_download w outputDir exts depth url s1 = ([], 0, 0, 0, s1) := by
      simp [parse_and_download, hd]
    have e2 : parse_and_download w outputDir exts depth url s2 = ([], 0, 0, 0, s2) := by
      simp [parse_and_download, hd]
    rw [e1, e2]
    exact ⟨hsim, rfl, rfl⟩
  · unfold parse_and_download at hmd ⊢
    simp only [hd, if_false] at hmd ⊢
    exact coreSim w outputDir exts L H hcoh depth.toNat url s1 s2 hsim hmd

theorem append_isSome (file : MetaFile) (rows : List (List String)) :
    ∃ g, append_metadata file rows = some g := by
  cases file <;> exact ⟨_, rfl⟩

theorem shapeOK_append (file : MetaFile) (rows : List (List String))
    (h : ShapeOK file) : ShapeOK (append_metadata file rows) := by
  rcases h with h | ⟨rs, h⟩
  · subst h
    exact Or.inr ⟨rows, rfl⟩
  · subst h
    exact Or.inr ⟨rs ++ rows, by simp [append_metadata]⟩

theorem load_append_mono (file : MetaFile) (rows : List (List String))
    (hshape : ShapeOK file) :
    ∀ u ∈ load_existing_metadata file,
      u ∈ load_existing_metadata (append_metadata file rows) := by
  intro u hu
  rcases hshape with h | ⟨rs, h⟩
  · subst h
    simp [load_existing_metadata] at hu
  · subst h
    simp only [load_existing_metadata] at hu
    obtain ⟨row, hrow, hcol⟩ := List.mem_filterMap.mp hu
    have : append_metadata (some (metaHeader :: rs)) rows =
        some (metaHeader :: (rs ++ rows)) := by
      simp [append_metadata]
    rw [this]
    simp only [load_existing_metadata]
    exact List.mem_filterMap.mpr ⟨row, List.mem_append_left _ hrow, hcol⟩

theorem load_append_new (file : MetaFile) (rows : List (List String))
    (hshape : ShapeOK file) (row : List String) (hrow : row ∈ rows)
    (u : String) (hcol : colValue metaHeader row "image_url" = some u) :
    u ∈ load_existing_metadata (append_metadata file rows) := by
  rcases hshape with h | ⟨rs, h⟩
  · subst h
    simp only [append_metadata, load_existing_metadata]
    exact List.mem_filterMap.mpr ⟨row, hrow, hcol⟩
  · subst h
    have : append_metadata (some (metaHeader :: rs)) rows =
        some (metaHeader :: (rs ++ rows)) := by
      simp [append_metadata]
    rw [this]
    simp only [load_existing_metadata]
    exact List.mem_filterMap.mpr ⟨row, List.mem_append_right _ hrow, hcol⟩

theorem foldLoadMono (w : World) (outputDir : String) (exts : List String)
    (depth : Int) : ∀ (seeds : List String) (acc : RunAcc), ShapeOK acc.file →
    (ShapeOK ((seeds.foldl (processSeed w outputDir exts depth) acc)).file ∧
     ∀ u ∈ load_existing_metadata acc.file,
       u ∈ load_existing_metadata
         ((seeds.foldl (processSeed w outputDir exts depth) acc)).file) := by
  intro seeds
  induction seeds with
  | nil => intro acc hs; exact ⟨hs, fun u hu => hu⟩
  | cons seed rest ih =>
    intro acc hs
    rcases hp : parse_and_download w outputDir exts depth seed acc.state with
      ⟨md, found, d, f, s1⟩
    have hfile : (processSeed w outputDir exts depth acc seed).file =
        append_metadata acc.file (md.map (metaRow w outputDir s1.files)) := by
      simp [processSeed, hp]
    have hs1 : ShapeOK (processSeed w outputDir exts depth acc seed).file := by
      rw [hfile]
      exact shapeOK_append _ _ hs
    have hrec := ih (processSeed w outputDir exts depth acc seed) hs1
    refine ⟨hrec.1, ?_⟩
    intro u hu
    refine hrec.2 u ?_
    rw [hfile]
    exact load_append_mono acc.file _ hs u hu

theorem foldSomeFile (w : World) (outputDir : String) (exts : List String)
    (depth : Int) : ∀ (seeds : List String) (acc : RunAcc),
    (∃ g, acc.file = some g) →
    ∃ g, ((seeds.foldl (processSeed w outputDir exts depth) acc)).file = some g := by
  intro seeds
  induction seeds with
  | nil => intro acc h; exact h
  | cons seed rest ih =>
    intro acc h
    refine ih (processSeed w outputDir exts depth acc seed) ?_
    rcases hp : parse_and_download w outputDir exts depth seed acc.state with
      ⟨md, found, d, f, s1⟩
    have hfile : (processSeed w outputDir exts depth acc seed).file =
        append_metadata acc.file (md.map (metaRow w outputDir s1.files)) := by
      simp [processSeed, hp]
    rw [hfile]
    exact append_isSome _ _

theorem foldSim (w : World) (outputDir : String) (exts : List String)
    (depth : Int) (L H : List String) (hcoh : StoreCoherent w L H) :
    ∀ (seeds : List String) (acc1 acc2 : RunAcc),
      SimInv L H acc1.state acc2.state → ShapeOK acc1.file →
      (∀ u ∈ load_existing_metadata
        ((seeds.foldl (processSeed w outputDir exts depth) acc1)).file, u ∈ L) →
      (∃ f2, acc2.file = some f2) →
      ((seeds.foldl (processSeed w outputDir exts depth) acc2)).file = acc2.file ∧
      ((seeds.foldl (processSeed w outputDir exts depth) acc2)).downloaded =
        acc2.downloaded := by
  intro seeds
  induction seeds with
  | nil => intro acc1 acc2 _ _ _ _; exact ⟨rfl, rfl⟩
  | cons seed rest ih =>
    intro acc1 acc2 hsim hshape hfut hsome2
    obtain ⟨f2, hf2⟩ := hsome2
    rcases hp1 : parse_and_download w outputDir exts depth seed acc1.state with
      ⟨md1, found1, d1, fa1, s1b⟩
    have hfile1 : (processSeed w outputDir exts depth acc1 seed).file =
        append_metadata acc1.file (md1.map (metaRow w outputDir s1b.files)) := by
      simp [processSeed, hp1]
    have hstate1 : (processSeed w outputDir exts depth acc1 seed).state = s1b := by
      simp [processSeed, hp1]
    have hshape1 : ShapeOK (processSeed w outputDir exts depth acc1 seed).file := by
      rw [hfile1]
      exact shapeOK_append _ _ hshape
    -- the urls of this task's metadata are all recorded, hence in L
    have hmd1 : ∀ t ∈ (parse_and_download w outputDir exts depth seed
        acc1.state).1, t.2.1 ∈ L := by
      intro t ht
      rw [hp1] at ht
      refine hfut t.2.1 ?_
      rw [List.foldl_cons]
      refine (foldLoadMono w outputDir exts depth rest
        (processSeed w outputDir exts depth acc1 seed) hshape1).2 t.2.1 ?_
      rw [hfile1]
      refine load_append_new acc1.file _ hshape (metaRow w outputDir s1b.files t)
        (List.mem_map_of_mem _ ht) t.2.1 rfl
    have hps := padSim w outputDir exts depth L H hcoh seed acc1.state acc2.state
      hsim hmd1
    rcases hp2 : parse_and_download w outputDir exts depth seed acc2.state with
      ⟨md2, found2, d2, fa2, s2b⟩
    rw [hp1, hp2] at hps
    have hmd2 : md2 = [] := hps.2.1
    have hd2 : d2 = 0 := hps.2.2
    have hfile2 : (processSeed w outputDir exts depth acc2 seed).file = acc2.file := by
      have : (processSeed w outputDir exts depth acc2 seed).file =
          append_metadata acc2.file (md2.map (metaRow w outputDir s2b.files)) := by
        simp [processSeed, hp2]
      rw [this, hmd2, hf2]
      simp [append_metadata]
    have hdl2 : (processSeed w outputDir exts depth acc2 seed).downloaded =
        acc2.downloaded := by
      have : (processSeed w outputDir exts depth acc2 seed).downloaded =
          acc2.downloaded + d2 := by
        simp [processSeed, hp2]
      rw [this, hd2, Nat.add_zero]
    have hstate2 : (processSeed w outputDir exts depth acc2 seed).state = s2b := by
      simp [processSeed, hp2]
    have hrec := ih (processSeed w outputDir exts depth acc1 seed)
      (processSeed w outputDir exts depth acc2 seed)
      (by rw [hstate1, hstate2]; exact hps.1) hshape1
      (by
        intro u hu
        refine hfut u ?_
        rw [List.foldl_cons]
        exact hu)
      (by rw [hfile2, hf2]; exact ⟨f2, rfl⟩)
    simp only [List.foldl_cons]
    exact ⟨by rw [hrec.1, hfile2], by rw [hrec.2, hdl2]⟩

theorem goImgs_gated (w : World) (outputDir pageUrl u : String) :
    ∀ (srcs : List String) (s : CrawlState), Gated u s →
      Gated u (goImgs w outputDir pageUrl srcs s).2.2.2 := by
  intro srcs
  induction srcs with
  | nil => intro s h; exact h
  | cons src rest ih =>
    intro s h
    obtain ⟨hdls, hlog⟩ := h
    by_cases hsd : w.shutdownFlag = true
    · have hfin : (goImgs w outputDir pageUrl (src :: rest) s).2.2.2 = s := by
        simp [goImgs, hsd]
      rw [hfin]
      exact ⟨hdls, hlog⟩
    · by_cases hmem : w.urljoin pageUrl src ∈ s.downloadedUrls
      · have hfin : goImgs w outputDir pageUrl (src :: rest) s =
            goImgs w outputDir pageUrl rest s := by
          simp [goImgs, hsd, admitURL, hmem]
        rw [hfin]
        exact ih s ⟨hdls, hlog⟩
      · have hne : u ≠ w.urljoin pageUrl src := by
          intro he
          rw [he] at hdls
          exact hmem hdls
        have hd := download_image_state w (w.urljoin pageUrl src)
          (outputDir ++ "/" ++ mkFname s.nextIndex
            (if extOf (pathOf (w.urljoin pageUrl src)) = "" then ".jpg"
             else extOf (pathOf (w.urljoin pageUrl src))))
          { s with
              downloadedUrls := w.urljoin pageUrl src :: s.downloadedUrls
              nextIndex := s.nextIndex + 1 }
        rcases hdl : download_image w (w.urljoin pageUrl src)
          (outputDir ++ "/" ++ mkFname s.nextIndex
            (if extOf (pathOf (w.urljoin pageUrl src)) = "" then ".jpg"
             else extOf (pathOf (w.urljoin pageUrl src))))
          { s with
              downloadedUrls := w.urljoin pageUrl src :: s.downloadedUrls
              nextIndex := s.nextIndex + 1 } with ⟨ok, s2⟩
        rw [hdl] at hd
        have hg2 : Gated u s2 := by
          constructor
          · rw [hd.1.1]
            exact List.mem_cons_of_mem _ hdls
          · rw [hd.1.2.2.2.2]
            intro hmem2
            rcases List.mem_append.mp hmem2 with h1 | h1
            · exact hlog h1
            · rw [List.mem_singleton] at h1
              exact hne h1
        have hrest := ih s2 hg2
        rcases hgi : goImgs w outputDir pageUrl rest s2 with ⟨md, d, f, s3⟩
        rw [hgi] at hrest
        have hfin : (goImgs w outputDir pageUrl (src :: rest) s).2.2.2 = s3 := by
          simp only [goImgs, hsd, if_false, admitURL, hmem, ite_false, hdl, hgi]
          cases ok <;> simp
        rw [hfin]
        exact hrest

theorem visitPage_gated (w : World) (outputDir : String) (exts : List String)
    (url u : String) (s : CrawlState) (h : Gated u s) :
    (∀ r, visitPage w outputDir exts url s = Sum.inl r → Gated u r.2.2.2.2) ∧
    (∀ q, visitPage w outputDir exts url s = Sum.inr q →
      Gated u q.2.2.2.2.2) := by
  by_cases hearly : url ∈ s.visited ∨ w.shutdownFlag = true
  · have hv : visitPage w outputDir exts url s = Sum.inl ([], 0, 0, 0, s) := by
      simp [visitPage, hearly]
    constructor
    · intro r hr
      rw [hv] at hr
      cases hr
      exact h
    · intro q hq
      rw [hv] at hq
      cases hq
  · have hs1 : Gated u
        { s with
            visited := url :: s.visited
            pageLog := s.pageLog ++ [url] } := h
    cases hpg : w.pages url with
    | none =>
      have hv : visitPage w outputDir exts url s =
          Sum.inl ([], 0, 0, 1,
            { s with
                visited := url :: s.visited
                pageLog := s.pageLog ++ [url] }) := by
        simp [visitPage, hearly, hpg]
      constructor
      · intro r hr
        rw [hv] at hr
        cases hr
        exact hs1
      · intro q hq
        rw [hv] at hq
        cases hq
    | some pg =>
      rcases hgi : goImgs w outputDir url (pg.imgSrcs.filter (keepSrc exts))
        { s with
            visited := url :: s.visited
            pageLog := s.pageLog ++ [url] } with ⟨md, d, f, s2⟩
      have hg2 := goImgs_gated w outputDir url u
        (pg.imgSrcs.filter (keepSrc exts))
        { s with
            visited := url :: s.visited
            pageLog := s.pageLog ++ [url] } hs1
      rw [hgi] at hg2
      have hv : visitPage w outputDir exts url s =
          Sum.inr (pg, md, (pg.imgSrcs.filter (keepSrc exts)).length, d, f, s2) := by
        simp [visitPage, hearly, hpg, hgi]
      constructor
      · intro r hr
        rw [hv] at hr
        cases hr
      · intro q hq
        rw [hv] at hq
        cases hq
        exact hg2

theorem goLinks_gated (w : World) (pageUrl u : String)
    (recur : String → CrawlState → List MetaTriple × Nat × Nat × Nat × CrawlState)
    (hrec : ∀ url t, Gated u t → Gated u (recur url t).2.2.2.2) :
    ∀ (links : List String) (s : CrawlState), Gated u s →
      Gated u (goLinks w pageUrl recur links s).2.2.2.2 := by
  intro links
  induction links with
  | nil => intro s h; exact h
  | cons link rest ih =>
    intro s h
    by_cases hnet : netlocOf (w.urljoin pageUrl link) = netlocOf pageUrl
    · rcases hr : recur (w.urljoin pageUrl link) s with ⟨m, f, d, fa, s1⟩
      have h1 : Gated u s1 := by
        have hx := hrec (w.urljoin pageUrl link) s h
        rw [hr] at hx
        exact hx
      rcases hg : goLinks w pageUrl recur rest s1 with ⟨m2, f2, d2, fa2, s2⟩
      have h2 : Gated u s2 := by
        have hx := ih s1 h1
        rw [hg] at hx
        exact hx
      have hfin : (goLinks w pageUrl recur (link :: rest) s).2.2.2.2 = s2 := by
        simp [goLinks, hnet, hr, hg]
      rw [hfin]
      exact h2
    · have hfin : goLinks w pageUrl recur (link :: rest) s =
          goLinks w pageUrl recur rest s := by
        simp [goLinks, hnet]
      rw [hfin]
      exact ih s h

theorem core_gated (w : World) (outputDir : String) (exts : List String)
    (u : String) : ∀ (n : Nat) (url : String) (s : CrawlState), Gated u s →
      Gated u (core w outputDir exts n url s).2.2.2.2 := by
  intro n
  induction n with
  | zero =>
    intro url s h
    cases hv : visitPage w outputDir exts url s with
    | inl r =>
      have hx := (visitPage_gated w outputDir exts url u s h).1 r hv
      have hfin : core w outputDir exts 0 url s = r := by simp [core, hv]
      rw [hfin]
      exact hx
    | inr q =>
      have hx := (visitPage_gated w outputDir exts url u s h).2 q hv
      obtain ⟨pg, md, found, d, f, s2⟩ := q
      have hfin : (core w outputDir exts 0 url s).2.2.2.2 = s2 := by
        simp [core, hv]
      rw [hfin]
      exact hx
  | succ n ih =>
    intro url s h
    cases hv : visitPage w outputDir exts url s with
    | inl r =>
      have hx := (visitPage_gated w outputDir exts url u s h).1 r hv
      have hfin : core w outputDir exts (n + 1) url s = r := by simp [core, hv]
      rw [hfin]
      exact hx
    | inr q =>
      have h1 := (visitPage_gated w outputDir exts url u s h).2 q hv
      obtain ⟨pg, md, found, d, f, s2⟩ := q
      have h2 := goLinks_gated w url u (core w outputDir exts n)
        (fun v t ht => ih v t ht) pg.links s2 h1
      rcases hg : goLinks w url (core w outputDir exts n) pg.links s2 with
        ⟨m2, f2, d2, fa2, s3⟩
      rw [hg] at h2
      have hfin : (core w outputDir exts (n + 1) url s).2.2.2.2 = s3 := by
        simp [core, hv, hg]
      rw [hfin]
      exact h2

theorem parse_and_download_gated (w : World) (outputDir : String)
    (exts : List String) (depth : Int) (url u : String) (s : CrawlState)
    (h : Gated u s) :
    Gated u (parse_and_download w outputDir exts depth url s).2.2.2.2 := by
  unfold parse_and_download
  by_cases hd : depth < 0
  · simp only [hd, if_true]
    exact h
  · simp only [hd, if_false]
    exact core_gated w outputDir exts u depth.toNat url s h

theorem foldGated (w : World) (outputDir : String) (exts : List String)
    (depth : Int) (u : String) :
    ∀ (seeds : List String) (acc : RunAcc), Gated u acc.state →
      Gated u ((seeds.foldl (processSeed w outputDir exts depth) acc)).state := by
  intro seeds
  induction seeds with
  | nil => intro acc h; exact h
  | cons seed rest ih =>
    intro acc h
    refine ih (processSeed w outputDir exts depth acc seed) ?_
    rcases hp : parse_and_download w outputDir exts depth seed acc.state with
      ⟨md, found, d, f, s1⟩
    have hstate : (processSeed w outputDir exts depth acc seed).state = s1 := by
      simp [processSeed, hp]
    rw [hstate]
    have hx := parse_and_download_gated w outputDir exts depth seed u acc.state h
    rw [hp] at hx
    exact hx

theorem runCrawler_noRefetch (w : World) (outputDir : String)
    (exts : List String) (depth : Int) (seeds : List String) (file0 : MetaFile)
    (files0 : List (String × Bytes)) :
    ∀ u ∈ load_existing_metadata file0,
      u ∈ (runCrawler w outputDir exts depth seeds file0
          files0).state.downloadedUrls ∧
      u ∉ (runCrawler w outputDir exts depth seeds file0 files0).state.imgLog := by
  intro u hu
  have hg : Gated u (initState file0 files0) := ⟨hu, List.not_mem_nil u⟩
  exact foldGated w outputDir exts depth u seeds (initAcc file0 files0) hg

theorem runCrawler_resume (w : World) (outputDir : String) (exts : List String)
    (depth : Int) (seeds : List String) :
    (runCrawler w outputDir exts depth seeds
        (runCrawler w outputDir exts depth seeds none []).file
        (runCrawler w outputDir exts depth seeds none
          []).state.files).downloaded = 0 ∧
    (runCrawler w outputDir exts depth seeds
        (runCrawler w outputDir exts depth seeds none []).file
        (runCrawler w outputDir exts depth seeds none []).state.files).file =
      (runCrawler w outputDir exts depth seeds none []).file := by
  cases seeds with
  | nil => exact ⟨rfl, rfl⟩
  | cons seed rest =>
    have hr2 : ∀ (file0 : MetaFile) (files0 : List (String × Bytes)),
        runCrawler w outputDir exts depth (seed :: rest) file0 files0 =
          (seed :: rest).foldl (processSeed w outputDir exts depth)
            (initAcc file0 files0) := fun _ _ => rfl
    rw [hr2, hr2]
    set F := (seed :: rest).foldl (processSeed w outputDir exts depth)
      (initAcc none []) with hF
    have hinv : FilesInv outputDir (initAcc none []).state := by
      intro pr hpr
      exact absurd hpr (List.not_mem_nil pr)
    have hok0 : FileOK w (initAcc none []).file := Or.inl rfl
    have hff := foldFiles w outputDir exts depth (seed :: rest) (initAcc none [])
      hinv hok0
    rw [← hF] at hff
    have hcoh := fileOK_coherent w F.file hff.2
    have hsim : SimInv (load_existing_metadata F.file) (loadHashes F.file)
        (initAcc none []).state (initAcc F.file F.state.files).state := by
      refine ⟨rfl, ?_, ?_, ?_⟩
      · intro x
        constructor
        · intro hx
          exact Or.inr hx
        · intro hx
          rcases hx with hx | hx
          · exact absurd hx (List.not_mem_nil x)
          · exact hx
      · intro x
        exact Iff.rfl
      · intro h0 hh0
        exact absurd hh0 (List.not_mem_nil h0)
    have hshape : ShapeOK (initAcc none []).file := Or.inl rfl
    have hfut : ∀ u ∈ load_existing_metadata
        ((seed :: rest).foldl (processSeed w outputDir exts depth)
          (initAcc none [])).file, u ∈ load_existing_metadata F.file := by
      rw [← hF]
      exact fun u hu => hu
    have hsf : ∃ g,
        (processSeed w outputDir exts depth (initAcc none []) seed).file =
          some g := by
      rcases hp : parse_and_download w outputDir exts depth seed
        (initAcc none []).state with ⟨md, found, d, f, s1⟩
      have hfe : (processSeed w outputDir exts depth (initAcc none []) seed).file =
          append_metadata (initAcc none []).file
            (md.map (metaRow w outputDir s1.files)) := by
        simp [processSeed, hp]
      rw [hfe]
      exact append_isSome _ _
    have hsome1 := foldSomeFile w outputDir exts depth rest
      (processSeed w outputDir exts depth (initAcc none []) seed) hsf
    have hsome2 : ∃ f2, (initAcc F.file F.state.files).file = some f2 := by
      rw [hF]
      exact hsome1
    have hmain := foldSim w outputDir exts depth
      (load_existing_metadata F.file) (loadHashes F.file) hcoh
      (seed :: rest) (initAcc none []) (initAcc F.file F.state.files)
      hsim hshape hfut hsome2
    exact ⟨hmain.2, hmain.1⟩

/-- C4: at session start the metadata store is loaded to rebuild the gate's
seen-source-URL state, and every source URL already present in the store
stays in that state for the whole session and is never requested from the
image transport again; consequently a second run on an unchanged seed list
and output directory performs zero downloads and leaves the metadata file
(and hence the record count) unchanged. -/
theorem C4_theorem (w : World) (outputDir : String) (exts : List String)
    (depth : Int) (seeds : List String) (file0 : MetaFile)
    (files0 : List (String × Bytes)) :
    (∀ u ∈ load_existing_metadata file0,
      u ∈ (runCrawler w outputDir exts depth seeds file0
          files0).state.downloadedUrls ∧
      u ∉ (runCrawler w outputDir exts depth seeds file0
          files0).state.imgLog) ∧
    ((runCrawler w outputDir exts depth seeds
        (runCrawler w outputDir exts depth seeds none []).file
        (runCrawler w outputDir exts depth seeds none
          []).state.files).downloaded = 0 ∧
     (runCrawler w outputDir exts depth seeds
        (runCrawler w outputDir exts depth seeds none []).file
        (runCrawler w outputDir exts depth seeds none []).state.files).file =
       (runCrawler w outputDir exts depth seeds none []).file) :=
  ⟨runCrawler_noRefetch w outputDir exts depth seeds file0 files0,
   runCrawler_resume w outputDir exts depth seeds⟩

theorem C4_witness :
    "http://h/a.jpg" ∈ load_existing_metadata (some (metaHeader ::
      [["img_000000.jpg", "http://h/a.jpg", "http://h/p", "deadbeef"]])) ∧
    ("http://h/a.jpg" ∈ (runCrawler dupWorld "out" [".jpg"] 0 ["http://h/p"]
        (some (metaHeader :: [["img_000000.jpg", "http://h/a.jpg",
          "http://h/p", "deadbeef"]]))
        [("out/img_000000.jpg", [1])]).state.downloadedUrls ∧
     "http://h/a.jpg" ∉ (runCrawler dupWorld "out" [".jpg"] 0 ["http://h/p"]
        (some (metaHeader :: [["img_000000.jpg", "http://h/a.jpg",
          "http://h/p", "deadbeef"]]))
        [("out/img_000000.jpg", [1])]).state.imgLog) :=
  ⟨by decide, (C4_theorem dupWorld "out" [".jpg"] 0 ["http://h/p"]
      (some (metaHeader :: [["img_000000.jpg", "http://h/a.jpg",
        "http://h/p", "deadbeef"]]))
      [("out/img_000000.jpg", [1])]).1 "http://h/a.jpg" (by decide)⟩

end ImCrawler
